import Mathlib

/-!
Verification of the gsv-tts-proxy speculative-synthesis engine.

This file gives a shallow embedding of the core components of the
repository (streaming sentence splitter, WAV codec, token rotator,
TTS upstream client, TTS cache manager) and proves or refutes the
specification claims about them.  Strings are modelled as `List Char`,
byte strings as `List Nat` (each entry a byte value), wall-clock times
as `Nat`, and the SHA-256 fingerprint as the serialised pair
`model ++ ":" ++ text` itself (the spec assumes the digest is
collision-free, so the serialisation is a faithful stand-in).
-/

namespace GsvTTS

/-! ## Python string helpers -/

/-- Characters removed by Python `str.strip()` (`str.isspace()` code points). -/
def pyIsSpace (c : Char) : Bool :=
  c.toNat ∈ [9, 10, 11, 12, 13, 28, 29, 30, 31, 32, 133, 160, 5760,
    8192, 8193, 8194, 8195, 8196, 8197, 8198, 8199, 8200, 8201, 8202,
    8232, 8233, 8239, 8287, 12288]

/-- Python `str.strip()`: drop whitespace from both ends. -/
def pyStrip (l : List Char) : List Char :=
  ((l.dropWhile pyIsSpace).reverse.dropWhile pyIsSpace).reverse

/-! ## Streaming sentence splitter (`app/services/text_splitter.py`)

The Python source builds `all_puncts_chars` from the literal
`{'，','、','；','：','——', ',',';',':', '"','"',''', ''','"',"'"}`;
note that `''', '''` is one triple-quoted Python string containing a
comma and a space, so the set's members of length one are the sixteen
characters below, and the members of length two are `"——"` and `", "`.
Those two-character members matter only inside the compiled regular
expression (alternatives sorted longest first); the per-character
membership tests in `get_effective_len` / `is_terminator_block` /
`segment[0] in all_puncts_chars` never match them. -/

def end_chars : List Char := ['。', '！', '？', '…', '!', '?', '.']

/-- The single-character members of `all_puncts_chars`. -/
def single_puncts : List Char :=
  end_chars ++ ['，', '、', '；', '：', ',', ';', ':', '"', '\'']

def isPunctChar (c : Char) : Bool := single_puncts.contains c

/-- `get_char_width`: ASCII counts 1, other code points count 2. -/
def get_char_width (c : Char) : Nat := if c.toNat < 128 then 1 else 2

/-- `get_effective_len`: widths of non-punctuation characters only. -/
def get_effective_len (l : List Char) : Nat :=
  ((l.filter (fun c => !isPunctChar c)).map get_char_width).sum

/-- `is_terminator_block`: any terminator character anywhere in the block. -/
def is_terminator_block (l : List Char) : Bool := l.any (fun c => end_chars.contains c)

/-- The two-character alternatives of the compiled pattern: `"——"` and `", "`. -/
def isPairAlt (a b : Char) : Bool := (a == '—' && b == '—') || (a == ',' && b == ' ')

/-- Does a match of the punctuation pattern start at this position? -/
def matchStart : List Char → Bool
  | [] => false
  | [c] => isPunctChar c
  | c1 :: c2 :: _ => isPairAlt c1 c2 || isPunctChar c1

/-- Greedy match of `((?:alt1|alt2|...)+)` at the head of the list: the
two-character alternatives are tried before the single characters, as in
the source (alternatives sorted by length, longest first).  Returns the
matched run and the remainder. -/
def munch : List Char → List Char × List Char
  | c1 :: c2 :: rest =>
    if isPairAlt c1 c2 then
      (c1 :: c2 :: (munch rest).1, (munch rest).2)
    else if isPunctChar c1 then
      (c1 :: (munch (c2 :: rest)).1, (munch (c2 :: rest)).2)
    else ([], c1 :: c2 :: rest)
  | [c] => if isPunctChar c then ([c], []) else ([], [c])
  | [] => ([], [])

/-- The maximal run of characters, starting at the head, at which no
punctuation match starts (a plain-text piece of `re.split`). -/
def textRun : List Char → List Char × List Char
  | [] => ([], [])
  | c :: rest =>
    if matchStart (c :: rest) then ([], c :: rest)
    else ((c :: (textRun rest).1), (textRun rest).2)

/-- `self.pattern.split(clean_buffer)` with the empty pieces dropped
(the consumer skips them with `if not segment: continue`): the list of
alternating text pieces and captured punctuation runs.  The fuel argument
only serves termination; `tokenize` supplies enough fuel that the
fuel-exhausted branch is never taken. -/
def tokenizeF : Nat → List Char → List (List Char)
  | _, [] => []
  | 0, l => [l]
  | fuel + 1, c :: rest =>
    if matchStart (c :: rest) then
      (munch (c :: rest)).1 :: tokenizeF fuel (munch (c :: rest)).2
    else
      (textRun (c :: rest)).1 :: tokenizeF fuel (textRun (c :: rest)).2

def tokenize (l : List Char) : List (List Char) := tokenizeF l.length l

/-- `max_len` / `min_len` of a `StreamingTextSplitter`. -/
structure SplitCfg where
  max_len : Nat
  min_len : Nat
  deriving DecidableEq, Repr

/-- The segment loop of `_try_split`: walk the tokens, accumulating
`current_buffer`; at a punctuation block (first character in the
punctuation set) that is not the last token, emit the stripped
accumulated text when the effective length reaches the threshold
selected by terminator / separator.  Returns (sentences, new buffer). -/
def processTokens (cfg : SplitCfg) : List (List Char) → List Char → List (List Char) × List Char
  | [], buf => ([], buf)
  | seg :: rest, buf =>
    let isPB : Bool := match seg with
      | c :: _ => isPunctChar c
      | [] => false
    if isPB then
      if rest.isEmpty then
        ([], buf ++ seg)
      else
        if is_terminator_block seg then
          if cfg.min_len ≤ get_effective_len (buf ++ seg) then
            (pyStrip (buf ++ seg) :: (processTokens cfg rest []).1,
             (processTokens cfg rest []).2)
          else processTokens cfg rest (buf ++ seg)
        else
          if cfg.max_len ≤ get_effective_len (buf ++ seg) then
            (pyStrip (buf ++ seg) :: (processTokens cfg rest []).1,
             (processTokens cfg rest []).2)
          else processTokens cfg rest (buf ++ seg)
    else processTokens cfg rest (buf ++ seg)

/-- State of a `StreamingTextSplitter`. -/
structure SplitterState where
  max_len : Nat
  min_len : Nat
  buffer : List Char
  deriving DecidableEq, Repr

def removeNewlines (l : List Char) : List Char := l.filter (fun c => c ≠ '\n')

/-- `_try_split`: clean newlines, tokenise, run the segment loop, store
the residue back into the buffer. -/
def try_split (st : SplitterState) : List (List Char) × SplitterState :=
  if st.buffer = [] then ([], st)
  else
    let clean := removeNewlines st.buffer
    let res := processTokens ⟨st.max_len, st.min_len⟩ (tokenize clean) []
    (res.1, { st with buffer := res.2 })

/-- `feed`: append the fragment to the buffer and attempt a split. -/
def feed (st : SplitterState) (text : List Char) : List (List Char) × SplitterState :=
  if text = [] then ([], st)
  else try_split { st with buffer := st.buffer ++ text }

/-- `flush`: return the stripped buffer when it is non-empty of positive
effective length, then clear the buffer. -/
def flush (st : SplitterState) : Option (List Char) × SplitterState :=
  if st.buffer = [] then (none, st)
  else
    let remaining := pyStrip st.buffer
    let st' := { st with buffer := [] }
    if remaining ≠ [] ∧ 0 < get_effective_len remaining then (some remaining, st')
    else (none, st')

def reset (st : SplitterState) : SplitterState := { st with buffer := [] }

/-- `split_text`: `reset`, `feed`, then append the `flush` residue. -/
def split_text (st : SplitterState) (text : List Char) : List (List Char) × SplitterState :=
  let p := feed (reset st) text
  let q := flush p.2
  match q.1 with
  | some r => (p.1 ++ [r], q.2)
  | none => (p.1, q.2)

/-! ## WAV codec (`app/services/audio_utils.py`)

Byte strings are `List Nat`, one entry per byte.  Python's forgiving
slicing (`wav_data[a:b]` clamps to the end of the string) is modelled by
`drop`/`take`; `struct.unpack` demands an exact-length slice and
`struct.pack` a value in range, so both are `Option`-valued, a failed
unpack/pack standing for the raised `struct.error` that the callers of
these helpers catch. -/

abbrev Bytes := List Nat

def sliceBytes (l : Bytes) (start len : Nat) : Bytes := (l.drop start).take len

def decodeLE (s : Bytes) : Nat := s.foldr (fun b acc => b + 256 * acc) 0

/-- `struct.unpack('<H' / '<I', l[start:start+n])[0]`. -/
def unpackLE (n : Nat) (l : Bytes) (start : Nat) : Option Nat :=
  if (sliceBytes l start n).length = n then some (decodeLE (sliceBytes l start n))
  else none

/-- Little-endian encoding of `v` on `n` bytes (`struct.pack`). -/
def packLE (n v : Nat) : Bytes := (List.range n).map (fun i => v / 256 ^ i % 256)

structure WavHeader where
  audio_format : Nat
  num_channels : Nat
  sample_rate : Nat
  byte_rate : Nat
  block_align : Nat
  bits_per_sample : Nat
  data_start : Nat
  data_size : Nat
  fmt_data : Bytes
  deriving DecidableEq, Repr

/-- The chunk-walking loop of `parse_wav_header`: 4-byte id, 4-byte
little-endian size, payload, one padding byte after odd-sized payloads;
remember the latest `fmt ` payload, stop at the first `data` chunk.  `pos`
advances by at least 8 per iteration, so `w.length` units of fuel are more
than enough; the fuel-exhausted branch coincides with falling off the end
of the loop. -/
def walkChunks (w : Bytes) : Nat → Nat → Option Bytes → Option Bytes × Option (Nat × Nat)
  | 0, _, fmt => (fmt, none)
  | fuel + 1, pos, fmt =>
    if pos < w.length - 8 then
      match unpackLE 4 w (pos + 4) with
      | none => (fmt, none)
      | some chunk_size =>
        if sliceBytes w pos 4 = [102, 109, 116, 32] then
          walkChunks w fuel (pos + 8 + chunk_size + (if chunk_size % 2 = 1 then 1 else 0))
            (some (sliceBytes w (pos + 8) chunk_size))
        else if sliceBytes w pos 4 = [100, 97, 116, 97] then
          (fmt, some (pos + 8, chunk_size))
        else
          walkChunks w fuel (pos + 8 + chunk_size + (if chunk_size % 2 = 1 then 1 else 0)) fmt
    else (fmt, none)

/-- `parse_wav_header`: `RIFF` at 0, `WAVE` at 8, walk chunks from 12,
then unpack the six fmt fields (raising — `none` — when the fmt payload is
shorter than 16 bytes). -/
def parse_wav_header (w : Bytes) : Option WavHeader :=
  if w.length < 44 then none
  else if sliceBytes w 0 4 ≠ [82, 73, 70, 70] then none
  else if sliceBytes w 8 4 ≠ [87, 65, 86, 69] then none
  else
    match walkChunks w w.length 12 none with
    | (some fmt_data, some ds) =>
      match unpackLE 2 fmt_data 0, unpackLE 2 fmt_data 2, unpackLE 4 fmt_data 4,
            unpackLE 4 fmt_data 8, unpackLE 2 fmt_data 12, unpackLE 2 fmt_data 14 with
      | some af, some nc, some sr, some br, some ba, some bps =>
        some ⟨af, nc, sr, br, ba, bps, ds.1, ds.2, fmt_data⟩
      | _, _, _, _, _, _ => none
    | _ => none

/-- `extract_audio_data`: the `data` payload, clamped to the end of the
buffer exactly as a Python slice is. -/
def extract_audio_data (w : Bytes) : Option Bytes :=
  (parse_wav_header w).map (fun h => sliceBytes w h.data_start h.data_size)

/-- `create_wav_header`: canonical 44-byte PCM header; `none` models the
`struct.error` raised when a field does not fit its 16- or 32-bit slot. -/
def create_wav_header (num_channels sample_rate bits_per_sample data_size audio_format : Nat) :
    Option Bytes :=
  let byte_rate := sample_rate * num_channels * bits_per_sample / 8
  let block_align := num_channels * bits_per_sample / 8
  if data_size + 36 < 2 ^ 32 ∧ audio_format < 2 ^ 16 ∧ num_channels < 2 ^ 16 ∧
      sample_rate < 2 ^ 32 ∧ byte_rate < 2 ^ 32 ∧ block_align < 2 ^ 16 ∧
      bits_per_sample < 2 ^ 16 then
    some ([82, 73, 70, 70] ++ packLE 4 (data_size + 36) ++ [87, 65, 86, 69]
      ++ [102, 109, 116, 32] ++ packLE 4 16 ++ packLE 2 audio_format
      ++ packLE 2 num_channels ++ packLE 4 sample_rate ++ packLE 4 byte_rate
      ++ packLE 2 block_align ++ packLE 2 bits_per_sample
      ++ [100, 97, 116, 97] ++ packLE 4 data_size)
  else none

/-- Body of `concatenate_wav` after the length filter: zero inputs → empty,
one input → verbatim; otherwise the first input's format is authoritative,
unparsable inputs are skipped, and any exception in the `try` block
(unparsable first input, header field that does not fit its slot) returns
the first surviving input. -/
def concatWavCore (files : List Bytes) : Bytes :=
  if files = [] then []
  else if files.length = 1 then files.headD []
  else
    match parse_wav_header (files.headD []) with
    | none => files.headD []
    | some h1 =>
      let payloads := files.filterMap extract_audio_data
      if payloads = [] then []
      else
        match create_wav_header h1.num_channels h1.sample_rate h1.bits_per_sample
            payloads.flatten.length h1.audio_format with
        | none => files.headD []
        | some hdr => hdr ++ payloads.flatten

/-- `concatenate_wav`: filter out falsy inputs and inputs of at most 44
bytes, then concatenate what remains. -/
def concatenate_wav (wav_files : List Bytes) : Bytes :=
  if wav_files = [] then []
  else concatWavCore (wav_files.filter (fun w => 44 < w.length))

/-- The `data` payload of a parsable WAV buffer (empty for unparsable ones). -/
def wavPayload (w : Bytes) : Bytes :=
  match parse_wav_header w with
  | some h => sliceBytes w h.data_start h.data_size
  | none => []

/-- The concatenation of the `data` payloads of a list of WAV buffers. -/
def totalPayload (l : List Bytes) : Bytes := (l.map wavPayload).flatten

/-! ### Claim C9 -/

/-- A 46-byte WAV: canonical 44-byte header (PCM, mono, 8000 Hz, 8-bit),
`data` chunk of declared and actual size 2. -/
def wavA : Bytes :=
  [82, 73, 70, 70] ++ packLE 4 38 ++ [87, 65, 86, 69]
    ++ [102, 109, 116, 32] ++ packLE 4 16 ++ packLE 2 1 ++ packLE 2 1
    ++ packLE 4 8000 ++ packLE 4 8000 ++ packLE 2 1 ++ packLE 2 8
    ++ [100, 97, 116, 97] ++ packLE 4 2 ++ [10, 20]

/-- A 45-byte WAV with the same format as `wavA` whose `data` chunk
declares 100 bytes but only 1 byte is present; Python's clamping slice
extracts that 1 byte. -/
def wavB : Bytes :=
  [82, 73, 70, 70] ++ packLE 4 137 ++ [87, 65, 86, 69]
    ++ [102, 109, 116, 32] ++ packLE 4 16 ++ packLE 2 1 ++ packLE 2 1
    ++ packLE 4 8000 ++ packLE 4 8000 ++ packLE 2 1 ++ packLE 2 8
    ++ [100, 97, 116, 97] ++ packLE 4 100 ++ [30]

/-! ## Token rotator (`app/services/token_rotator.py`)

`_stats` is a Python dict keyed by the token strings; it is modelled as a
total function `String → TokenStats` (initialised like the dict
comprehension), which agrees with the dict on every key that can ever be
looked up.  `time.time()` is a `Nat` argument.  Python's
`if stats.last_failure_at:` is falsy both for `None` and for the float
`0.0`, hence the explicit `lf ≠ 0` conjunct. -/

def MAX_CONSECUTIVE_FAILURES : Nat := 5

def RECOVERY_INTERVAL : Nat := 300

structure TokenStats where
  token : String
  total_requests : Nat
  successful_requests : Nat
  failed_requests : Nat
  consecutive_failures : Nat
  last_used_at : Option Nat
  last_failure_at : Option Nat
  is_available : Bool
  deriving DecidableEq, Repr

def initStats (t : String) : TokenStats := ⟨t, 0, 0, 0, 0, none, none, true⟩

structure TokenRotator where
  tokens : List String
  current_index : Nat
  stats : String → TokenStats

/-- `TokenRotator.__init__` (the empty-pool `ValueError` is handled by the
claims only ever constructing non-empty pools). -/
def mkRotator (tokens : List String) : TokenRotator := ⟨tokens, 0, initStats⟩

def updStats (r : TokenRotator) (t : String) (f : TokenStats → TokenStats) : TokenRotator :=
  { r with stats := fun u => if u = t then f (r.stats u) else r.stats u }

/-- `self.current_index = (self.current_index + 1) % len(self.tokens)`. -/
def advanceCursor (r : TokenRotator) : TokenRotator :=
  { r with current_index := (r.current_index + 1) % r.tokens.length }

/-- On selection: set `last_used_at`, bump `total_requests`. -/
def bumpUse (now : Nat) (s : TokenStats) : TokenStats :=
  { s with last_used_at := some now, total_requests := s.total_requests + 1 }

/-- The `while attempts < len(self.tokens)` loop of `get_next_token`:
`none` means the loop fell through with no candidate. -/
def scanNext (now : Nat) : Nat → TokenRotator → Option (String × TokenRotator)
  | 0, _ => none
  | attemptsLeft + 1, r =>
    if (r.stats (r.tokens.getD r.current_index "")).is_available then
      some (r.tokens.getD r.current_index "",
        updStats (advanceCursor r) (r.tokens.getD r.current_index "") (bumpUse now))
    else
      match (r.stats (r.tokens.getD r.current_index "")).last_failure_at with
      | some lf =>
        if lf ≠ 0 ∧ RECOVERY_INTERVAL ≤ now - lf then
          some (r.tokens.getD r.current_index "",
            updStats (advanceCursor r) (r.tokens.getD r.current_index "") (fun s =>
              bumpUse now { s with is_available := true, consecutive_failures := 0 }))
        else scanNext now attemptsLeft (advanceCursor r)
      | none => scanNext now attemptsLeft (advanceCursor r)

def resetAllTokens (r : TokenRotator) : TokenRotator :=
  { r with stats := fun u =>
      { r.stats u with is_available := true, consecutive_failures := 0 } }

/-- `get_next_token`: scan at most `len(tokens)` positions; if none is
selected, force-reset every record, select index 0 and set the cursor to
`1 % len(tokens)`. -/
def getNextToken (r : TokenRotator) (now : Nat) : String × TokenRotator :=
  match scanNext now r.tokens.length r with
  | some res => res
  | none =>
    ((resetAllTokens r).tokens.getD 0 "",
      updStats { resetAllTokens r with current_index := 1 % r.tokens.length }
        ((resetAllTokens r).tokens.getD 0 "") (bumpUse now))

def report_success (r : TokenRotator) (t : String) : TokenRotator :=
  if t ∈ r.tokens then
    updStats r t (fun s =>
      { s with successful_requests := s.successful_requests + 1,
               consecutive_failures := 0, is_available := true })
  else r

def report_failure (r : TokenRotator) (t : String) (now : Nat) : TokenRotator :=
  if t ∈ r.tokens then
    updStats r t (fun s =>
      let s1 := { s with failed_requests := s.failed_requests + 1,
                         consecutive_failures := s.consecutive_failures + 1,
                         last_failure_at := some now }
      if MAX_CONSECUTIVE_FAILURES ≤ s1.consecutive_failures then
        { s1 with is_available := false }
      else s1)
  else r

/-- A circuit-broken record that the scan loop will not re-enable at time
`now` (no recorded failure time, a falsy one, or not enough time elapsed). -/
def notRecoverable (s : TokenStats) (now : Nat) : Bool :=
  match s.last_failure_at with
  | none => true
  | some lf => lf == 0 || decide (now - lf < RECOVERY_INTERVAL)

/-- The rotator obtained from a single-token pool after five consecutive
failures reported at times 6..10. -/
def rotatorAfterFiveFailures : TokenRotator :=
  report_failure (report_failure (report_failure (report_failure (report_failure
    (mkRotator ["t1"]) "t1" 6) "t1" 7) "t1" 8) "t1" 9) "t1" 10

/-! ## TTS upstream client (`app/services/tts_client.py`)

`synthesize` is a retry loop around one HTTP attempt.  The network is
modelled by an oracle mapping the attempt number to the credential the
rotator hands out and the attempt's outcome; the loop's observable
behaviour (rotator interactions, sleeps, result) is recorded as an event
list.  Sleep durations are rationals (`0.5 * 2 ** attempt` seconds). -/

inductive AttemptOutcome where
  | ok (audio : Bytes)
  | err (msg : String)
  deriving DecidableEq, Repr

inductive SynthEvent where
  | getToken (t : String)
  | reportSuccess (t : String)
  | reportFailure (t : String) (e : String)
  | sleep (q : ℚ)
  deriving DecidableEq, Repr

/-- The `for attempt in range(retry_count + 1)` loop, as a recursion on the
number of attempts still allowed; `attempt` is the current index and
`lastError` the last failure message (`None` before any attempt). -/
def synthLoop (oracle : Nat → String × AttemptOutcome) :
    Nat → Nat → Option String → List SynthEvent × Except String Bytes
  | 0, _, lastError =>
    ([], Except.error ("All TTS request attempts failed: "
      ++ (lastError.getD "None")))
  | remaining + 1, attempt, _ =>
    match oracle attempt with
    | (tok, AttemptOutcome.ok audio) =>
      ([SynthEvent.getToken tok, SynthEvent.reportSuccess tok], Except.ok audio)
    | (tok, AttemptOutcome.err e) =>
      ([SynthEvent.getToken tok, SynthEvent.reportFailure tok e]
          ++ (if 0 < remaining then [SynthEvent.sleep ((1 / 2 : ℚ) * 2 ^ attempt)] else [])
          ++ (synthLoop oracle remaining (attempt + 1) (some e)).1,
        (synthLoop oracle remaining (attempt + 1) (some e)).2)

/-- `synthesize(text)`: up to `retry_count + 1` attempts. -/
def synthesize (retry_count : Nat) (oracle : Nat → String × AttemptOutcome) :
    List SynthEvent × Except String Bytes :=
  synthLoop oracle (retry_count + 1) 0 none

def isOkOutcome : AttemptOutcome → Bool
  | AttemptOutcome.ok _ => true
  | AttemptOutcome.err _ => false

def errText : AttemptOutcome → String
  | AttemptOutcome.ok _ => ""
  | AttemptOutcome.err e => e

def okAudio : AttemptOutcome → Bytes
  | AttemptOutcome.ok a => a
  | AttemptOutcome.err _ => []

def isTokenReq : SynthEvent → Bool
  | SynthEvent.getToken _ => true
  | _ => false

def countTokenReqs (evs : List SynthEvent) : Nat := (evs.filter isTokenReq).length

/-- The three observable events of one failed, non-final attempt `j`:
credential request, failure report, exponential-backoff sleep. -/
def failBlock (oracle : Nat → String × AttemptOutcome) (j : Nat) : List SynthEvent :=
  [SynthEvent.getToken (oracle j).1,
   SynthEvent.reportFailure (oracle j).1 (errText (oracle j).2),
   SynthEvent.sleep ((1 / 2 : ℚ) * 2 ^ j)]

/-- An oracle whose first attempt fails and whose second succeeds. -/
def witnessOracle : Nat → String × AttemptOutcome :=
  fun j => if j = 0 then ("tA", AttemptOutcome.err "boom")
    else ("tB", AttemptOutcome.ok [1])

/-! ## TTS cache manager (`app/services/tts_cache.py`)

The manager's state is the cache dict (an insertion-ordered association
list, like a Python dict), the segment-map dict, and the list of live
generation tasks.  A generation task for a key runs in two slices: its
first slice (`taskRun`) re-reads the entry under the lock and sets
`GENERATING` (exiting silently when the key is gone), then it awaits
`synthesize`; its second slice (`taskCommit`) re-reads the entry and
commits the outcome (audio/`COMPLETED` or error/`FAILED`, setting the
completion event), doing nothing when the key is gone.  The cooperative
scheduler is modelled by letting these slices interleave freely with the
manager's operations in a trace of steps. -/

inductive CacheStatus where
  | PENDING
  | GENERATING
  | COMPLETED
  | FAILED
  deriving DecidableEq, Repr

structure TTSCacheEntry where
  text : String
  model : String
  audio : Option Bytes
  status : CacheStatus
  created_at : Nat
  completed_at : Option Nat
  error : Option String
  eventSet : Bool
  deriving DecidableEq, Repr

def newEntry (text model : String) (now : Nat) : TTSCacheEntry :=
  ⟨text, model, none, CacheStatus.PENDING, now, none, none, false⟩

structure SegmentMapping where
  full_text : String
  segment_keys : List String
  created_at : Nat
  deriving DecidableEq, Repr

/-- `_generate_cache_key`: `sha256(f"{model}:{text}")`, modelled by the
serialised string itself (collisions are assumed impossible, spec §3). -/
def cacheKey (text model : String) : String := model ++ ":" ++ text

inductive TaskStage where
  | spawned
  | running
  deriving DecidableEq, Repr

structure CMState where
  cache : List (String × TTSCacheEntry)
  segment_map : List (String × SegmentMapping)
  tasks : List (String × TaskStage)
  max_size : Nat
  ttl : Nat
  deriving DecidableEq, Repr

def initCM (max_size ttl : Nat) : CMState := ⟨[], [], [], max_size, ttl⟩

def alookup {α : Type} : List (String × α) → String → Option α
  | [], _ => none
  | (k, v) :: rest, key => if key = k then some v else alookup rest key

/-- Overwrite-or-insert for a Python dict: an existing key keeps its
position, a new key is appended. -/
def aupsert {α : Type} (l : List (String × α)) (k : String) (v : α) : List (String × α) :=
  if (alookup l k).isSome then l.map (fun p => if p.1 = k then (k, v) else p)
  else l ++ [(k, v)]

def updateEntry (cache : List (String × TTSCacheEntry)) (k : String)
    (g : TTSCacheEntry → TTSCacheEntry) : List (String × TTSCacheEntry) :=
  cache.map (fun p => if p.1 = k then (p.1, g p.2) else p)

/-- Python `sorted(..., key=lambda x: x[1].created_at)` is a stable sort;
Mathlib's insertion sort by the same non-strict comparison computes the
same (stability determines the result uniquely). -/
def byCreated (a b : String × TTSCacheEntry) : Prop := a.2.created_at ≤ b.2.created_at

instance : DecidableRel byCreated := fun a b => Nat.decLe a.2.created_at b.2.created_at

instance : IsTotal (String × TTSCacheEntry) byCreated :=
  ⟨fun a b => Nat.le_total a.2.created_at b.2.created_at⟩

instance : IsTrans (String × TTSCacheEntry) byCreated :=
  ⟨fun _ _ _ => Nat.le_trans⟩

/-- The keys deleted by `_evict_if_needed`: the oldest
`max(1, len(cache) // 10)` entries by creation time (stable order). -/
def evictRemoved (cache : List (String × TTSCacheEntry)) (max_size : Nat) : List String :=
  if max_size ≤ cache.length then
    ((List.insertionSort byCreated cache).take (max 1 (cache.length / 10))).map Prod.fst
  else []

/-- `_evict_if_needed`: delete those keys from the dict. -/
def evictIfNeeded (cache : List (String × TTSCacheEntry)) (max_size : Nat) :
    List (String × TTSCacheEntry) :=
  cache.filter (fun p => p.1 ∉ evictRemoved cache max_size)

/-- `submit`: an existing entry (whatever its status) is returned as-is
with no new task; otherwise evict if at capacity, insert a fresh `PENDING`
entry and schedule one generation task.  Returns the cache key. -/
def submitOp (s : CMState) (text model : String) (now : Nat) : CMState × String :=
  match alookup s.cache (cacheKey text model) with
  | some _ => (s, cacheKey text model)
  | none =>
    ({ s with
        cache := evictIfNeeded s.cache s.max_size
          ++ [(cacheKey text model, newEntry text model now)],
        tasks := s.tasks ++ [(cacheKey text model, TaskStage.spawned)] },
      cacheKey text model)

/-- First slice of `_generate`: set `GENERATING` under the lock, or exit
silently when the entry vanished.  `i` addresses the task in the list. -/
def taskRun (s : CMState) (i : Nat) : CMState :=
  match s.tasks.get? i with
  | some (k, TaskStage.spawned) =>
    match alookup s.cache k with
    | none => { s with tasks := s.tasks.eraseIdx i }
    | some _ =>
      { s with
          cache := updateEntry s.cache k
            (fun e => { e with status := CacheStatus.GENERATING }),
          tasks := s.tasks.set i (k, TaskStage.running) }
  | _ => s

/-- Second slice of `_generate`: commit the synthesis outcome to whatever
entry now sits under the key (none, if it vanished). -/
def taskCommit (s : CMState) (i : Nat) (outcome : Except String Bytes) (now : Nat) :
    CMState :=
  match s.tasks.get? i with
  | some (k, TaskStage.running) =>
    { s with
        tasks := s.tasks.eraseIdx i,
        cache := updateEntry s.cache k (fun e =>
          match outcome with
          | Except.ok audio =>
            { e with audio := some audio, status := CacheStatus.COMPLETED,
                     completed_at := some now, eventSet := true }
          | Except.error msg =>
            { e with status := CacheStatus.FAILED, error := some msg,
                     eventSet := true }) }
  | _ => s

/-- `_cleanup_expired`: drop entries and mappings with
`now - created_at > ttl`. -/
def cleanupExpired (s : CMState) (now : Nat) : CMState :=
  { s with
      cache := s.cache.filter (fun p => ¬ s.ttl < now - p.2.created_at),
      segment_map := s.segment_map.filter (fun p => ¬ s.ttl < now - p.2.created_at) }

def clearOp (s : CMState) : CMState := { s with cache := [], segment_map := [] }

/-- Python `str.strip()` on a `String`. -/
def pyStripS (t : String) : String := ⟨pyStrip t.data⟩

/-- `full_text[:100] + ("..." if len(full_text) > 100 else "")`. -/
def truncateFull (full_text : String) : String :=
  if 100 < full_text.length then ⟨full_text.data.take 100⟩ ++ "..." else full_text

/-- One iteration of the segment loop of `submit_with_segments`. -/
def swsStep (model : String) (now : Nat) (acc : CMState × List String) (seg : String) :
    CMState × List String :=
  if seg ≠ "" ∧ pyStripS seg ≠ "" then
    ((submitOp acc.1 (pyStripS seg) model now).1,
     acc.2 ++ [(submitOp acc.1 (pyStripS seg) model now).2])
  else acc

/-- `submit_with_segments`: submit each non-empty segment stripped,
collect the keys in order; record the mapping only when at least one
segment survived.  Returns (state, full key, recorded segment keys). -/
def submitWithSegments (s : CMState) (full_text : String) (segments : List String)
    (model : String) (now : Nat) : CMState × String × List String :=
  match segments.foldl (swsStep model now) (s, []) with
  | (s1, []) => (s1, cacheKey full_text model, [])
  | (s1, k :: ks) =>
    ({ s1 with segment_map := (aupsert s1.segment_map (cacheKey full_text model)
        ⟨truncateFull full_text, k :: ks, now⟩) },
     cacheKey full_text model, k :: ks)

/-- How a blocked reader's `asyncio.wait_for(entry._event.wait(), timeout)`
resolves: either the timeout fires, or the waiter wakes and re-reads the
entry, whose fields are then `e`. -/
inductive WaitOutcome where
  | timedOut
  | woke (e : TTSCacheEntry)
  deriving DecidableEq, Repr

/-- `get_by_key`: a pure read — the source performs no assignment on this
path, leaving every entry (status, audio, error, signal) unchanged, so the
embedding consumes the state and returns only the optional audio. -/
def get_by_key (s : CMState) (key : String) (w : WaitOutcome) : Option Bytes :=
  match alookup s.cache key with
  | none => none
  | some e =>
    if e.status = CacheStatus.COMPLETED then e.audio
    else if e.status = CacheStatus.FAILED then none
    else
      match w with
      | WaitOutcome.timedOut => none
      | WaitOutcome.woke e' =>
        if e'.status = CacheStatus.COMPLETED then e'.audio else none

inductive CMStep where
  | submit (text model : String) (now : Nat)
  | submitSegments (full_text : String) (segments : List String) (model : String) (now : Nat)
  | taskRun (i : Nat)
  | taskCommit (i : Nat) (outcome : Except String Bytes) (now : Nat)
  | cleanup (now : Nat)
  | clear
  deriving Repr

def execStep (s : CMState) : CMStep → CMState
  | CMStep.submit text model now => (submitOp s text model now).1
  | CMStep.submitSegments ft segs m now => (submitWithSegments s ft segs m now).1
  | CMStep.taskRun i => taskRun s i
  | CMStep.taskCommit i o now => taskCommit s i o now
  | CMStep.cleanup now => cleanupExpired s now
  | CMStep.clear => clearOp s

def execTrace (s : CMState) (tr : List CMStep) : CMState := tr.foldl execStep s

/-- Live generation tasks per fingerprint. -/
def countTasks (s : CMState) (k : String) : Nat :=
  (s.tasks.filter (fun p => p.1 = k)).length

def liveKeys (s : CMState) : List String := s.tasks.map Prod.fst

/-- Invariant behind the claimed size bound: the cache never exceeds
`max_size` entries and its keys are distinct. -/
def CacheSizeInv (s : CMState) : Prop :=
  s.cache.length ≤ s.max_size ∧ (s.cache.map Prod.fst).Nodup ∧ 1 ≤ s.max_size

/-! ### Claims C1 and C4 -/

/-- Sixteen submissions of distinct texts into a manager with
`max_size = 15`. -/
def evictTrace : List CMStep :=
  (List.range 16).map (fun i => CMStep.submit (toString i) "M" (i + 1))

/-- A two-entry cache with distinct keys and increasing timestamps. -/
def demoCache : List (String × TTSCacheEntry) :=
  [("k1", newEntry "a" "M" 1), ("k2", newEntry "b" "M" 2)]

/-- The interleaving that breaks the entry invariant: a generation task is
started for `"a"`, the entry is evicted and the fingerprint resubmitted
while the task awaits `synthesize`, the stale task then commits its audio
into the fresh entry (PENDING → COMPLETED), and the fresh entry's own task
subsequently sets GENERATING — leaving audio and the completion signal set
on a non-terminal entry. -/
def badTrace : List CMStep :=
  [CMStep.submit "a" "M" 1, CMStep.taskRun 0, CMStep.submit "b" "M" 2,
   CMStep.submit "a" "M" 3, CMStep.taskCommit 0 (Except.ok [7]) 4,
   CMStep.taskRun 1]

/-! ### Coalescing invariant (claim C2)

The code coalesces at submit time, but a key evicted (or expired, or
cleared) while its task is in flight can be resubmitted, creating a second
task for the same fingerprint.  `SafeStep` singles out the steps that never
remove a key with a live task; under that restriction at most one task per
fingerprint ever exists. -/

/-- Per-segment safety of the submits performed by `submit_with_segments`. -/
def SafeSegs (model : String) (now : Nat) : CMState → List String → Prop
  | _, [] => True
  | s, seg :: rest =>
    if seg ≠ "" ∧ pyStripS seg ≠ "" then
      (alookup s.cache (cacheKey (pyStripS seg) model) = none →
        ∀ k ∈ evictRemoved s.cache s.max_size, k ∉ liveKeys s)
      ∧ SafeSegs model now (submitOp s (pyStripS seg) model now).1 rest
    else SafeSegs model now s rest

/-- A step that removes no cache key still owned by a live task. -/
def SafeStep (s : CMState) : CMStep → Prop
  | CMStep.submit text model _ =>
    alookup s.cache (cacheKey text model) = none →
      ∀ k ∈ evictRemoved s.cache s.max_size, k ∉ liveKeys s
  | CMStep.submitSegments _ segs model now => SafeSegs model now s segs
  | CMStep.taskRun _ => True
  | CMStep.taskCommit _ _ _ => True
  | CMStep.cleanup now =>
    ∀ p ∈ s.cache, s.ttl < now - p.2.created_at → p.1 ∉ liveKeys s
  | CMStep.clear => ∀ p ∈ s.cache, p.1 ∉ liveKeys s

inductive SafeReachable (max_size ttl : Nat) : CMState → Prop where
  | init : SafeReachable max_size ttl (initCM max_size ttl)
  | step {s : CMState} (st : CMStep) : SafeReachable max_size ttl s →
      SafeStep s st → SafeReachable max_size ttl (execStep s st)

/-- Every live task's key is present, and no fingerprint owns two tasks. -/
def TasksInv (s : CMState) : Prop :=
  (∀ p ∈ s.tasks, alookup s.cache p.1 ≠ none) ∧ (∀ k : String, countTasks s k ≤ 1)

def demoEntryCompleted : TTSCacheEntry :=
  ⟨"t", "M", some [1, 2], CacheStatus.COMPLETED, 1, some 2, none, true⟩

def demoStateC3 : CMState := ⟨[("k", demoEntryCompleted)], [], [], 10, 3600⟩

/-! ### Segment submission (claim C10) -/

/-- The loop guard `if seg and seg.strip():` of `submit_with_segments`. -/
def survives (seg : String) : Bool := seg != "" && pyStripS seg != ""

/-! ## Theorems -/

/-! ### Splitter lemmas -/

theorem munch_append : ∀ l : List Char, (munch l).1 ++ (munch l).2 = l
  | [] => by simp [munch]
  | [c] => by cases h : isPunctChar c <;> simp [munch, h]
  | c1 :: c2 :: rest => by
    cases h1 : isPairAlt c1 c2
    · cases h2 : isPunctChar c1
      · simp [munch, h1, h2]
      · have ih := munch_append (c2 :: rest)
        simp [munch, h1, h2, ih]
    · have ih := munch_append rest
      simp [munch, h1, ih]

theorem textRun_append : ∀ l : List Char, (textRun l).1 ++ (textRun l).2 = l
  | [] => by simp [textRun]
  | c :: rest => by
    cases h : matchStart (c :: rest)
    · have ih := textRun_append rest
      simp [textRun, h, ih]
    · simp [textRun, h]

theorem tokenizeF_flatten : ∀ (fuel : Nat) (l : List Char), (tokenizeF fuel l).flatten = l := by
  intro fuel
  induction fuel with
  | zero => intro l; cases l <;> simp [tokenizeF]
  | succ fuel ih =>
    intro l
    cases l with
    | nil => simp [tokenizeF]
    | cons c rest =>
      cases h : matchStart (c :: rest) <;>
        simp [tokenizeF, h, ih, munch_append, textRun_append]

theorem tokenize_flatten (l : List Char) : (tokenize l).flatten = l :=
  tokenizeF_flatten l.length l

theorem dropWhile_eq_self_of_none (p : Char → Bool) (l : List Char)
    (h : ∀ c ∈ l, p c = false) : l.dropWhile p = l := by
  cases l with
  | nil => rfl
  | cons c t => simp [List.dropWhile, h c (by simp)]

theorem pyStrip_eq_self (l : List Char) (h : ∀ c ∈ l, pyIsSpace c = false) :
    pyStrip l = l := by
  unfold pyStrip
  rw [dropWhile_eq_self_of_none _ _ h,
    dropWhile_eq_self_of_none _ _ (fun c hc => h c (List.mem_reverse.1 hc)),
    List.reverse_reverse]

/-- One-step unfolding of the segment loop at a non-punctuation (or empty)
segment: the segment is appended to the accumulator and the loop continues. -/
theorem processTokens_cons_text (cfg : SplitCfg) (buf seg : List Char)
    (rest : List (List Char))
    (h : (match seg with | c :: _ => isPunctChar c | [] => false) = false) :
    processTokens cfg (seg :: rest) buf = processTokens cfg rest (buf ++ seg) := by
  cases seg with
  | nil => simp [processTokens]
  | cons c cs =>
    have hc : isPunctChar c = false := h
    simp only [processTokens, hc, Bool.false_eq_true, if_false]

/-- One-step unfolding at a punctuation block that is the last token:
no split decision is taken. -/
theorem processTokens_cons_lastPunct (cfg : SplitCfg) (buf : List Char)
    (c : Char) (cs : List Char) (hc : isPunctChar c = true) :
    processTokens cfg [c :: cs] buf = ([], buf ++ (c :: cs)) := by
  simp only [processTokens, hc, List.isEmpty_nil, if_true]

/-- One-step unfolding at a punctuation block that is not the last token:
the block is folded into the accumulated text, and the accumulated text is
emitted (stripped) exactly when its effective length reaches `min_len`
(terminator block) respectively `max_len` (separator-only block). -/
theorem processTokens_cons_punct (cfg : SplitCfg) (buf : List Char)
    (c : Char) (cs : List Char) (rest : List (List Char))
    (hc : isPunctChar c = true) (hrest : rest ≠ []) :
    processTokens cfg ((c :: cs) :: rest) buf =
      if (if is_terminator_block (c :: cs) then
            cfg.min_len ≤ get_effective_len (buf ++ (c :: cs))
          else
            cfg.max_len ≤ get_effective_len (buf ++ (c :: cs))) then
        (pyStrip (buf ++ (c :: cs)) :: (processTokens cfg rest []).1,
         (processTokens cfg rest []).2)
      else processTokens cfg rest (buf ++ (c :: cs)) := by
  have hne : rest.isEmpty = false := by
    cases rest with
    | nil => exact absurd rfl hrest
    | cons r rs => rfl
  simp only [processTokens, hc, hne, Bool.false_eq_true, if_false, if_true]
  cases ht : is_terminator_block (c :: cs) <;> simp [ht]

theorem processTokens_flatten (cfg : SplitCfg) :
    ∀ (toks : List (List Char)) (buf : List Char),
      (∀ c ∈ buf, pyIsSpace c = false) →
      (∀ c ∈ toks.flatten, pyIsSpace c = false) →
      (processTokens cfg toks buf).1.flatten ++ (processTokens cfg toks buf).2
        = buf ++ toks.flatten
  | [], buf, _, _ => by simp [processTokens]
  | seg :: rest, buf, hbuf, htoks => by
    have hseg : ∀ c ∈ seg, pyIsSpace c = false := fun c hc => htoks c (by simp [hc])
    have hrest : ∀ c ∈ rest.flatten, pyIsSpace c = false := fun c hc =>
      htoks c (by simp [hc])
    have hbuf' : ∀ c ∈ buf ++ seg, pyIsSpace c = false := by
      intro c hc
      rcases List.mem_append.1 hc with h | h
      exacts [hbuf c h, hseg c h]
    have ihKeep := processTokens_flatten cfg rest (buf ++ seg) hbuf' hrest
    have ihEmit := processTokens_flatten cfg rest [] (by simp) hrest
    have hstrip : pyStrip (buf ++ seg) = buf ++ seg := pyStrip_eq_self _ hbuf'
    rcases hshape : (match seg with | c :: _ => isPunctChar c | [] => false)
    · rw [processTokens_cons_text cfg buf seg rest hshape]
      rw [ihKeep]
      simp [List.append_assoc]
    · obtain ⟨c, cs, rfl⟩ : ∃ c cs, seg = c :: cs := by
        cases seg with
        | nil => simp at hshape
        | cons c cs => exact ⟨c, cs, rfl⟩
      have hc : isPunctChar c = true := hshape
      cases rest with
      | nil =>
        rw [processTokens_cons_lastPunct cfg buf c cs hc]
        simp
      | cons r rs =>
        rw [processTokens_cons_punct cfg buf c cs (r :: rs) hc (by simp)]
        have he : (processTokens cfg (r :: rs) []).1.flatten
            ++ (processTokens cfg (r :: rs) []).2 = (r :: rs).flatten := by
          simpa using ihEmit
        by_cases hcond : (if is_terminator_block (c :: cs) then
            cfg.min_len ≤ get_effective_len (buf ++ (c :: cs))
          else cfg.max_len ≤ get_effective_len (buf ++ (c :: cs)))
        · rw [if_pos hcond]
          show (pyStrip (buf ++ c :: cs) :: (processTokens cfg (r :: rs) []).1).flatten
              ++ (processTokens cfg (r :: rs) []).2 = _
          rw [List.flatten_cons, List.append_assoc, he, hstrip]
          simp
        · rw [if_neg hcond]
          rw [ihKeep]
          simp

theorem feed_empty (m n : Nat) (t : List Char) (h : t ≠ []) :
    feed ⟨m, n, []⟩ t =
      ((processTokens ⟨m, n⟩ (tokenize (removeNewlines t)) []).1,
       ⟨m, n, (processTokens ⟨m, n⟩ (tokenize (removeNewlines t)) []).2⟩) := by
  simp [feed, try_split, h]

theorem split_text_eq (st : SplitterState) (t : List Char) :
    split_text st t =
      match (flush (feed (reset st) t).2).1 with
      | some r => ((feed (reset st) t).1 ++ [r], (flush (feed (reset st) t).2).2)
      | none => ((feed (reset st) t).1, (flush (feed (reset st) t).2).2) := rfl

/-! ### Claims C5 and C6 -/

/-- C5: during `feed`, a punctuation block that is not the last token of the
tokenisation pass and contains a terminator causes emission of the (stripped)
accumulated text iff its effective length (punctuation excluded, width 1 for
code points < 128 else 2) is at least `min_len`, while a separator-only block
causes emission iff that length is at least `max_len`; and concretely, with
defaults `max_len = 40`, `min_len = 5`, feeding `"你好，世界。今天"` into an
empty buffer returns `["你好，世界。"]` and leaves the buffer `"今天"`. -/
theorem claim_C5 :
    (∀ (cfg : SplitCfg) (buf : List Char) (c : Char) (cs : List Char)
        (rest : List (List Char)),
      isPunctChar c = true → rest ≠ [] →
      processTokens cfg ((c :: cs) :: rest) buf =
        if (if is_terminator_block (c :: cs) then
              cfg.min_len ≤ get_effective_len (buf ++ (c :: cs))
            else
              cfg.max_len ≤ get_effective_len (buf ++ (c :: cs))) then
          (pyStrip (buf ++ (c :: cs)) :: (processTokens cfg rest []).1,
           (processTokens cfg rest []).2)
        else processTokens cfg rest (buf ++ (c :: cs)))
    ∧ feed ⟨40, 5, []⟩ "你好，世界。今天".toList
        = (["你好，世界。".toList], ⟨40, 5, "今天".toList⟩) :=
  ⟨fun cfg buf c cs rest hc hrest =>
    processTokens_cons_punct cfg buf c cs rest hc hrest, by decide⟩

theorem claim_C5_witness :
    processTokens ⟨40, 5⟩ [['。'], ['x']] "abcde".toList
      = (["abcde。".toList], ['x']) := by
  have h := claim_C5.1 ⟨40, 5⟩ "abcde".toList '。' [] [['x']] (by decide) (by decide)
  exact h.trans (by decide)

/-- C6 counterexample: the sentences emitted by `_try_split` are stripped of
surrounding whitespace, and `flush` drops a residue of effective length 0, so
`split_text " abcde. ,"` returns `["abcde."]`, whose concatenation is not the
input (which contains no newlines to remove). -/
theorem claim_C6_counterexample :
    ¬ ((split_text ⟨40, 5, []⟩ " abcde. ,".toList).1.flatten
        = removeNewlines " abcde. ,".toList) := by decide

/-- C6 (amended): for every input whose characters are newlines or
non-whitespace, and whose post-`feed` residual buffer is empty or has positive
effective length, the concatenation in order of all sentences returned by
`split_text` equals the input with newline characters removed.  (In general,
each emitted sentence loses surrounding whitespace to `str.strip()`, and a
final residue of effective length 0 — punctuation and whitespace only — is
dropped by `flush`.) -/
theorem claim_C6 (m n : Nat) (b t : List Char)
    (hws : ∀ c ∈ t, c = '\n' ∨ pyIsSpace c = false)
    (hres : (feed ⟨m, n, []⟩ t).2.buffer = []
      ∨ 0 < get_effective_len (feed ⟨m, n, []⟩ t).2.buffer) :
    (split_text ⟨m, n, b⟩ t).1.flatten = removeNewlines t := by
  by_cases ht : t = []
  · subst ht
    simp [split_text, reset, feed, flush, removeNewlines]
  · have hcleanMem : ∀ c ∈ removeNewlines t, pyIsSpace c = false := by
      intro c hc
      rcases List.mem_filter.1 hc with ⟨hct, hcn⟩
      have hcn' : c ≠ '\n' := by simpa using hcn
      rcases hws c hct with h1 | h1
      · exact absurd h1 hcn'
      · exact h1
    have hPF := processTokens_flatten ⟨m, n⟩ (tokenize (removeNewlines t)) []
      (by simp) (by rw [tokenize_flatten]; exact hcleanMem)
    rw [tokenize_flatten, List.nil_append] at hPF
    have hp : feed ⟨m, n, []⟩ t
        = ((processTokens ⟨m, n⟩ (tokenize (removeNewlines t)) []).1,
           ⟨m, n, (processTokens ⟨m, n⟩ (tokenize (removeNewlines t)) []).2⟩) :=
      feed_empty m n t ht
    rw [hp] at hres
    rw [split_text_eq]
    have hreset : reset (⟨m, n, b⟩ : SplitterState) = ⟨m, n, []⟩ := rfl
    rw [hreset, hp]
    cases hres2 : (processTokens ⟨m, n⟩ (tokenize (removeNewlines t)) []).2 with
    | nil =>
      rw [hres2] at hPF
      simp [flush]
      simpa using hPF
    | cons x xs =>
      have heff : 0 < get_effective_len (x :: xs) := by
        rcases hres with h | h
        · rw [hres2] at h; cases h
        · rw [hres2] at h; exact h
      have hmem : ∀ c ∈ x :: xs, pyIsSpace c = false := by
        intro c hc
        apply hcleanMem
        rw [← hPF, hres2]
        exact List.mem_append_right _ hc
      have hstripid : pyStrip (x :: xs) = x :: xs := pyStrip_eq_self _ hmem
      rw [hres2] at hPF
      simp only [flush, hres2, hstripid]
      simp [heff]
      simpa using hPF

theorem claim_C6_witness :
    (split_text ⟨40, 5, []⟩ "你好，世界。今天".toList).1.flatten
      = removeNewlines "你好，世界。今天".toList :=
  claim_C6 40 5 [] _ (by decide) (by decide)

/-! ### WAV codec lemmas -/

theorem packLE_length (n v : Nat) : (packLE n v).length = n := by
  simp [packLE]

theorem packLE_succ (n v : Nat) : packLE (n + 1) v = v % 256 :: packLE n (v / 256) := by
  unfold packLE
  rw [List.range_succ_eq_map]
  simp only [List.map_cons, List.map_map]
  refine congrArg₂ List.cons (by simp) (List.map_congr_left ?_)
  intro i _
  show v / 256 ^ (i + 1) % 256 = v / 256 / 256 ^ i % 256
  rw [Nat.div_div_eq_div_mul, pow_succ, mul_comm (256 ^ i) 256, mul_comm 256 (256 ^ i)]

theorem decodeLE_packLE (n : Nat) : ∀ v : Nat, decodeLE (packLE n v) = v % 256 ^ n := by
  induction n with
  | zero => intro v; simp [packLE, decodeLE, Nat.mod_one]
  | succ n ih =>
    intro v
    rw [packLE_succ]
    show v % 256 + 256 * decodeLE (packLE n (v / 256)) = v % 256 ^ (n + 1)
    rw [ih, pow_succ, mul_comm (256 ^ n) 256, Nat.mod_mul]

theorem unpackLE_of_drop (n : Nat) (l : Bytes) (start v : Nat) (suf : Bytes)
    (h : l.drop start = packLE n v ++ suf) (hv : v < 256 ^ n) :
    unpackLE n l start = some v := by
  unfold unpackLE sliceBytes
  rw [h, List.take_left' (packLE_length n v), packLE_length, if_pos rfl,
    decodeLE_packLE, Nat.mod_eq_of_lt hv]

theorem drop_of_eq_append (l pre suf : Bytes) (k : Nat)
    (h : l = pre ++ suf) (hk : pre.length = k) : l.drop k = suf := by
  subst h
  rw [← hk, List.drop_left]

/-- Field extraction from a header built by `create_wav_header` (with
anything appended after it): the 44-byte layout puts the channel count at
offset 22, the sample rate at 24, the bits per sample at 34 and the data
size at 40. -/
theorem create_header_fields (nc sr bps ds af : Nat) (hdr rest : Bytes)
    (h : create_wav_header nc sr bps ds af = some hdr) :
    hdr.length = 44 ∧
    unpackLE 2 (hdr ++ rest) 22 = some nc ∧
    unpackLE 4 (hdr ++ rest) 24 = some sr ∧
    unpackLE 2 (hdr ++ rest) 34 = some bps ∧
    unpackLE 4 (hdr ++ rest) 40 = some ds := by
  unfold create_wav_header at h
  dsimp only at h
  split at h
  case isFalse => exact absurd h (by simp)
  case isTrue hb =>
    obtain ⟨hds, haf, hnc, hsr, hbr, hba, hbps⟩ := hb
    have hhdr := (Option.some_injective _ h).symm
    subst hhdr
    refine ⟨by simp [packLE_length], ?_, ?_, ?_, ?_⟩
    · refine unpackLE_of_drop 2 _ 22 nc
        (packLE 4 sr ++ packLE 4 (sr * nc * bps / 8) ++ packLE 2 (nc * bps / 8)
          ++ packLE 2 bps ++ [100, 97, 116, 97] ++ packLE 4 ds ++ rest)
        (drop_of_eq_append _
          ([82, 73, 70, 70] ++ packLE 4 (ds + 36) ++ [87, 65, 86, 69]
            ++ [102, 109, 116, 32] ++ packLE 4 16 ++ packLE 2 af) _ 22
          (by simp [List.append_assoc]) (by simp [packLE_length])) ?_
      calc nc < 2 ^ 16 := hnc
        _ ≤ 256 ^ 2 := by norm_num
    · refine unpackLE_of_drop 4 _ 24 sr
        (packLE 4 (sr * nc * bps / 8) ++ packLE 2 (nc * bps / 8)
          ++ packLE 2 bps ++ [100, 97, 116, 97] ++ packLE 4 ds ++ rest)
        (drop_of_eq_append _
          ([82, 73, 70, 70] ++ packLE 4 (ds + 36) ++ [87, 65, 86, 69]
            ++ [102, 109, 116, 32] ++ packLE 4 16 ++ packLE 2 af ++ packLE 2 nc) _ 24
          (by simp [List.append_assoc]) (by simp [packLE_length])) ?_
      calc sr < 2 ^ 32 := hsr
        _ ≤ 256 ^ 4 := by norm_num
    · refine unpackLE_of_drop 2 _ 34 bps
        ([100, 97, 116, 97] ++ packLE 4 ds ++ rest)
        (drop_of_eq_append _
          ([82, 73, 70, 70] ++ packLE 4 (ds + 36) ++ [87, 65, 86, 69]
            ++ [102, 109, 116, 32] ++ packLE 4 16 ++ packLE 2 af ++ packLE 2 nc
            ++ packLE 4 sr ++ packLE 4 (sr * nc * bps / 8)
            ++ packLE 2 (nc * bps / 8)) _ 34
          (by simp [List.append_assoc]) (by simp [packLE_length])) ?_
      calc bps < 2 ^ 16 := hbps
        _ ≤ 256 ^ 2 := by norm_num
    · refine unpackLE_of_drop 4 _ 40 ds (rest)
        (drop_of_eq_append _
          ([82, 73, 70, 70] ++ packLE 4 (ds + 36) ++ [87, 65, 86, 69]
            ++ [102, 109, 116, 32] ++ packLE 4 16 ++ packLE 2 af ++ packLE 2 nc
            ++ packLE 4 sr ++ packLE 4 (sr * nc * bps / 8)
            ++ packLE 2 (nc * bps / 8) ++ packLE 2 bps
            ++ [100, 97, 116, 97]) _ 40
          (by simp [List.append_assoc]) (by simp [packLE_length])) ?_
      calc ds < 2 ^ 32 := by omega
        _ ≤ 256 ^ 4 := by norm_num

theorem filterMap_extract (l : List Bytes) (h : ∀ w ∈ l, (parse_wav_header w).isSome) :
    l.filterMap extract_audio_data = l.map wavPayload := by
  induction l with
  | nil => rfl
  | cons w ws ih =>
    obtain ⟨hh, hp⟩ := Option.isSome_iff_exists.1 (h w (by simp))
    have hx : extract_audio_data w = some (wavPayload w) := by
      unfold extract_audio_data wavPayload
      rw [hp]
      rfl
    rw [List.filterMap_cons, hx, List.map_cons, ih (fun x hx => h x (by simp [hx]))]

theorem concatWav_core_eq (wav_files : List Bytes) (g : List Bytes)
    (hfil : wav_files.filter (fun w => 44 < w.length) = g) (hg : g ≠ []) :
    concatenate_wav wav_files = concatWavCore g := by
  have hnf : wav_files ≠ [] := by
    intro he
    rw [he] at hfil
    exact hg hfil.symm
  unfold concatenate_wav
  rw [if_neg hnf, hfil]

/-- C9 counterexample: both inputs survive the length filter, parse as
RIFF/WAVE with fmt and data chunks, and share the first input's format,
yet the output's data-chunk size field records the 3 bytes actually
present, not the sum 2 + 100 of the inputs' declared data-chunk sizes
(the second input's data chunk is clamped by the Python slice). -/
theorem claim_C9_counterexample :
    [wavA, wavB].filter (fun w => 44 < w.length) = [wavA, wavB]
    ∧ (parse_wav_header wavA).map (fun h => h.data_size) = some 2
    ∧ (parse_wav_header wavB).map (fun h => h.data_size) = some 100
    ∧ (parse_wav_header wavB).map
          (fun h => (h.audio_format, h.num_channels, h.sample_rate, h.bits_per_sample))
        = (parse_wav_header wavA).map
          (fun h => (h.audio_format, h.num_channels, h.sample_rate, h.bits_per_sample))
    ∧ unpackLE 4 (concatenate_wav [wavA, wavB]) 40 = some 3
    ∧ (3 : Nat) ≠ 2 + 100 := by
  refine ⟨by decide, by decide, by decide, by decide, by decide, by decide⟩

/-- C9 (amended): `concatenate_wav` discards inputs shorter than 45 bytes;
it returns empty bytes if no input remains and the sole remaining input
verbatim if exactly one remains; if parsing the first remaining input
fails, that input is returned unchanged; otherwise, when every remaining
input parses and shares the first input's format (and the header fields
fit their 16- or 32-bit slots), the output is a 44-byte header built from the
first input's format followed by all inputs' PCM payloads concatenated in
order, so the output's data-chunk size equals the total length of the
inputs' PCM payloads as actually present (each the declared data size
clamped to the bytes remaining in that input), and its header reports the
shared sample rate, channel count and bits per sample. -/
theorem claim_C9 :
    (∀ wav_files : List Bytes,
      concatenate_wav wav_files
        = concatenate_wav (wav_files.filter (fun w => 44 < w.length)))
    ∧ (∀ wav_files : List Bytes,
        wav_files.filter (fun w => 44 < w.length) = [] →
        concatenate_wav wav_files = [])
    ∧ (∀ (wav_files : List Bytes) (w : Bytes),
        wav_files.filter (fun w => 44 < w.length) = [w] →
        concatenate_wav wav_files = w)
    ∧ (∀ (wav_files : List Bytes) (w0 w1 : Bytes) (rest : List Bytes),
        wav_files.filter (fun w => 44 < w.length) = w0 :: w1 :: rest →
        parse_wav_header w0 = none →
        concatenate_wav wav_files = w0)
    ∧ (∀ (wav_files : List Bytes) (w0 w1 : Bytes) (rest : List Bytes) (h1 : WavHeader),
        wav_files.filter (fun w => 44 < w.length) = w0 :: w1 :: rest →
        parse_wav_header w0 = some h1 →
        (∀ w ∈ w0 :: w1 :: rest,
          (parse_wav_header w).map
              (fun h => (h.audio_format, h.num_channels, h.sample_rate, h.bits_per_sample))
            = some (h1.audio_format, h1.num_channels, h1.sample_rate, h1.bits_per_sample)) →
        (totalPayload (w0 :: w1 :: rest)).length + 36 < 2 ^ 32 →
        h1.audio_format < 2 ^ 16 → h1.num_channels < 2 ^ 16 →
        h1.sample_rate < 2 ^ 32 → h1.bits_per_sample < 2 ^ 16 →
        h1.sample_rate * h1.num_channels * h1.bits_per_sample / 8 < 2 ^ 32 →
        h1.num_channels * h1.bits_per_sample / 8 < 2 ^ 16 →
        ∃ hdr,
          create_wav_header h1.num_channels h1.sample_rate h1.bits_per_sample
              (totalPayload (w0 :: w1 :: rest)).length h1.audio_format = some hdr
          ∧ concatenate_wav wav_files = hdr ++ totalPayload (w0 :: w1 :: rest)
          ∧ hdr.length = 44
          ∧ (concatenate_wav wav_files).length
              = 44 + (totalPayload (w0 :: w1 :: rest)).length
          ∧ unpackLE 4 (concatenate_wav wav_files) 40
              = some (totalPayload (w0 :: w1 :: rest)).length
          ∧ unpackLE 2 (concatenate_wav wav_files) 22 = some h1.num_channels
          ∧ unpackLE 4 (concatenate_wav wav_files) 24 = some h1.sample_rate
          ∧ unpackLE 2 (concatenate_wav wav_files) 34 = some h1.bits_per_sample) := by
  refine ⟨?_, ?_, ?_, ?_, ?_⟩
  · intro wav_files
    by_cases h0 : wav_files = []
    · subst h0; rfl
    · unfold concatenate_wav
      rw [if_neg h0]
      by_cases hf : wav_files.filter (fun w => 44 < w.length) = []
      · rw [hf]; rfl
      · conv_rhs => unfold concatenate_wav
        rw [if_neg hf]
        congr 1
        rw [List.filter_filter]
        simp
  · intro wav_files h
    by_cases h0 : wav_files = []
    · subst h0; rfl
    · unfold concatenate_wav
      rw [if_neg h0, h]
      rfl
  · intro wav_files w h
    rw [concatWav_core_eq wav_files [w] h (by simp)]
    rfl
  · intro wav_files w0 w1 rest hfil hp0
    rw [concatWav_core_eq wav_files (w0 :: w1 :: rest) hfil (by simp)]
    unfold concatWavCore
    rw [if_neg (by simp), if_neg (by simp)]
    simp only [List.headD_cons, hp0]
  · intro wav_files w0 w1 rest h1 hfil hp0 hshare htot haf hnc hsr hbps hbr hba
    have hsome : ∀ w ∈ w0 :: w1 :: rest, (parse_wav_header w).isSome := by
      intro w hw
      have := hshare w hw
      cases hpw : parse_wav_header w
      · rw [hpw] at this; simp at this
      · simp
    have hps : (w0 :: w1 :: rest).filterMap extract_audio_data
        = (w0 :: w1 :: rest).map wavPayload := filterMap_extract _ hsome
    have hcr : (create_wav_header h1.num_channels h1.sample_rate h1.bits_per_sample
        (totalPayload (w0 :: w1 :: rest)).length h1.audio_format).isSome := by
      unfold create_wav_header
      dsimp only
      rw [if_pos ⟨htot, haf, hnc, hsr, hbr, hba, hbps⟩]
      rfl
    obtain ⟨hdr, hcr⟩ := Option.isSome_iff_exists.1 hcr
    have hcw : concatenate_wav wav_files = hdr ++ totalPayload (w0 :: w1 :: rest) := by
      rw [concatWav_core_eq wav_files (w0 :: w1 :: rest) hfil (by simp)]
      unfold concatWavCore
      rw [if_neg (by simp), if_neg (by simp)]
      simp only [List.headD_cons, hp0]
      rw [hps]
      rw [if_neg (by simp)]
      unfold totalPayload at hcr
      rw [hcr]
      rfl
    obtain ⟨hlen, h22, h24, h34, h40⟩ :=
      create_header_fields h1.num_channels h1.sample_rate h1.bits_per_sample
        (totalPayload (w0 :: w1 :: rest)).length h1.audio_format hdr
        (totalPayload (w0 :: w1 :: rest)) hcr
    refine ⟨hdr, hcr, hcw, hlen, ?_, ?_, ?_, ?_, ?_⟩
    · rw [hcw, List.length_append, hlen]
    · rw [hcw]; exact h40
    · rw [hcw]; exact h22
    · rw [hcw]; exact h24
    · rw [hcw]; exact h34

/-- Witness for C9 at the two concrete WAV buffers above. -/
theorem claim_C9_witness :
    unpackLE 4 (concatenate_wav [wavA, wavB]) 40
      = some (totalPayload [wavA, wavB]).length := by
  obtain ⟨hdr, -, -, -, -, h40, -, -, -⟩ :=
    claim_C9.2.2.2.2 [wavA, wavB] wavA wavB []
      ⟨1, 1, 8000, 8000, 1, 8, 44, 2, sliceBytes wavA 20 16⟩
      (by decide) (by decide) (by decide) (by decide) (by decide) (by decide)
      (by decide) (by decide) (by decide) (by decide)
  exact h40

/-! ### Token rotator lemmas -/

theorem updStats_self (r : TokenRotator) (t : String) (f : TokenStats → TokenStats) :
    (updStats r t f).stats t = f (r.stats t) := by
  simp [updStats]

theorem updStats_other (r : TokenRotator) (t u : String) (f : TokenStats → TokenStats)
    (h : u ≠ t) : (updStats r t f).stats u = r.stats u := by
  simp [updStats, h]

theorem scanNext_select (now : Nat) :
    ∀ (k : Nat) (r : TokenRotator) (t : String) (r' : TokenRotator),
      scanNext now k r = some (t, r') →
      (r.stats t).is_available = true ∨
      (∃ lf, (r.stats t).last_failure_at = some lf ∧ lf ≠ 0 ∧
        RECOVERY_INTERVAL ≤ now - lf) := by
  intro k
  induction k with
  | zero => intro r t r' h; exact absurd h (by simp [scanNext])
  | succ k ih =>
    intro r t r' h
    unfold scanNext at h
    split at h
    next hav =>
      simp only [Option.some.injEq, Prod.mk.injEq] at h
      obtain ⟨rfl, -⟩ := h
      exact Or.inl hav
    next hav =>
      split at h
      next lf hlf =>
        split at h
        next hc =>
          simp only [Option.some.injEq, Prod.mk.injEq] at h
          obtain ⟨rfl, -⟩ := h
          exact Or.inr ⟨lf, hlf, hc.1, hc.2⟩
        next hc => exact ih (advanceCursor r) t r' h
      next hlf => exact ih (advanceCursor r) t r' h

theorem scanNext_none_all (now : Nat) :
    ∀ (k : Nat) (r : TokenRotator),
      0 < r.tokens.length → r.current_index < r.tokens.length →
      scanNext now k r = none →
      ∀ j < k,
        (r.stats (r.tokens.getD ((r.current_index + j) % r.tokens.length) "")).is_available
          = false := by
  intro k
  induction k with
  | zero => intro r _ _ _ j hj; exact absurd hj (by omega)
  | succ k ih =>
    intro r hlen hcur h j hj
    unfold scanNext at h
    split at h
    next hav => exact absurd h (by simp)
    next hav =>
      have hfalse : (r.stats (r.tokens.getD r.current_index "")).is_available = false := by
        simpa using hav
      have hrec : scanNext now k (advanceCursor r) = none := by
        split at h
        next lf hlf =>
          split at h
          next hc => exact absurd h (by simp)
          next hc => exact h
        next hlf => exact h
      cases j with
      | zero => simpa [Nat.mod_eq_of_lt hcur] using hfalse
      | succ j' =>
        have hlen' : 0 < (advanceCursor r).tokens.length := hlen
        have hcur' : (advanceCursor r).current_index < (advanceCursor r).tokens.length :=
          Nat.mod_lt _ hlen
        have hh := ih (advanceCursor r) hlen' hcur' hrec j' (by omega)
        have hidx : ((advanceCursor r).current_index + j') % (advanceCursor r).tokens.length
            = (r.current_index + (j' + 1)) % r.tokens.length := by
          show ((r.current_index + 1) % r.tokens.length + j') % r.tokens.length = _
          rw [Nat.mod_add_mod]
          congr 1
          omega
        rw [hidx] at hh
        exact hh

theorem scanNext_none_of (now : Nat) :
    ∀ (k : Nat) (r : TokenRotator),
      0 < r.tokens.length → r.current_index < r.tokens.length →
      (∀ u ∈ r.tokens, (r.stats u).is_available = false
        ∧ notRecoverable (r.stats u) now = true) →
      scanNext now k r = none := by
  intro k
  induction k with
  | zero => intro r _ _ _; rfl
  | succ k ih =>
    intro r hlen hcur hall
    have htokmem : r.tokens.getD r.current_index "" ∈ r.tokens := by
      rw [List.getD_eq_getElem r.tokens "" hcur]
      exact List.getElem_mem hcur
    obtain ⟨hav, hnr⟩ := hall _ htokmem
    have hall' : ∀ u ∈ (advanceCursor r).tokens,
        ((advanceCursor r).stats u).is_available = false
          ∧ notRecoverable ((advanceCursor r).stats u) now = true := hall
    have hrec := ih (advanceCursor r) hlen (Nat.mod_lt _ hlen) hall'
    unfold scanNext
    split
    next h => rw [hav] at h; exact absurd h (by simp)
    next h =>
      split
      next lf hlf =>
        unfold notRecoverable at hnr
        rw [hlf] at hnr
        have hno : ¬(lf ≠ 0 ∧ RECOVERY_INTERVAL ≤ now - lf) := by
          simp only [Bool.or_eq_true, beq_iff_eq, decide_eq_true_eq] at hnr
          rcases hnr with h0 | hlt
          · intro hc; exact hc.1 h0
          · intro hc; omega
        rw [if_neg hno]
        exact hrec
      next hlf => exact hrec

/-! ### Claim C7 -/

/-- C7 counterexample: with a single-credential pool, five failures make the
credential unavailable; the next `get_next_token` takes the forced-recovery
path (no time-based recovery at `now = 20`), returns the credential at
index 0 — but sets the rotation cursor to `1 % 1 = 0`, not to 1 as the
claim states. -/
theorem claim_C7_counterexample :
    (rotatorAfterFiveFailures.stats "t1").consecutive_failures = 5
    ∧ (rotatorAfterFiveFailures.stats "t1").is_available = false
    ∧ (∀ u ∈ rotatorAfterFiveFailures.tokens,
        (rotatorAfterFiveFailures.stats u).is_available = false)
    ∧ (getNextToken rotatorAfterFiveFailures 20).1 = "t1"
    ∧ ((getNextToken rotatorAfterFiveFailures 20).2.stats "t1").is_available = true
    ∧ (getNextToken rotatorAfterFiveFailures 20).2.current_index = 0
    ∧ (0 : Nat) ≠ 1 := by
  refine ⟨by decide, by decide, by decide, by decide, by decide, by decide, by decide⟩

/-- C7 (amended): (1) `report_failure` increments the consecutive-failure
count, records the failure time, and marks the credential unavailable once
the count reaches the threshold 5; (2) in any rotator state with an in-range
cursor, `get_next_token` returns an unavailable credential only if
`RECOVERY_INTERVAL = 300` seconds have elapsed since its (truthy) last
failure time, or every credential in the pool is unavailable; (3) when every
credential is unavailable and none is time-recoverable, forced recovery
re-enables all credentials (consecutive failures reset to 0), selects the
credential at index 0, and advances the cursor to `1 mod pool size` —
which is 1 for every pool of at least two credentials but 0 for a
single-credential pool. -/
theorem claim_C7 :
    (∀ (r : TokenRotator) (t : String) (now : Nat), t ∈ r.tokens →
      ((report_failure r t now).stats t).consecutive_failures
          = (r.stats t).consecutive_failures + 1
        ∧ ((report_failure r t now).stats t).last_failure_at = some now
        ∧ (MAX_CONSECUTIVE_FAILURES ≤ (r.stats t).consecutive_failures + 1 →
            ((report_failure r t now).stats t).is_available = false))
    ∧ (∀ (r : TokenRotator) (t : String) (now : Nat),
        0 < r.tokens.length → r.current_index < r.tokens.length →
        (r.stats t).is_available = false →
        (getNextToken r now).1 = t →
        (∃ lf, (r.stats t).last_failure_at = some lf ∧ lf ≠ 0 ∧
          RECOVERY_INTERVAL ≤ now - lf)
        ∨ (∀ u ∈ r.tokens, (r.stats u).is_available = false))
    ∧ (∀ (r : TokenRotator) (now : Nat),
        0 < r.tokens.length → r.current_index < r.tokens.length →
        (∀ u ∈ r.tokens, (r.stats u).is_available = false
          ∧ notRecoverable (r.stats u) now = true) →
        (getNextToken r now).1 = r.tokens.getD 0 ""
          ∧ (getNextToken r now).2.current_index = 1 % r.tokens.length
          ∧ (∀ u ∈ r.tokens, ((getNextToken r now).2.stats u).is_available = true
              ∧ ((getNextToken r now).2.stats u).consecutive_failures = 0)) := by
  refine ⟨?_, ?_, ?_⟩
  · intro r t now ht
    unfold report_failure
    rw [if_pos ht, updStats_self]
    dsimp only
    refine ⟨by split <;> rfl, by split <;> rfl, ?_⟩
    intro hth
    rw [if_pos (show MAX_CONSECUTIVE_FAILURES
      ≤ (r.stats t).consecutive_failures + 1 from hth)]
  · intro r t now hlen hcur hunav hsel
    unfold getNextToken at hsel
    cases hscan : scanNext now r.tokens.length r with
    | some res =>
      rw [hscan] at hsel
      obtain ⟨t', r'⟩ := res
      dsimp only at hsel
      subst hsel
      rcases scanNext_select now r.tokens.length r t' r' hscan with hav | hrec
      · rw [hunav] at hav
        cases hav
      · exact Or.inl hrec
    | none =>
      refine Or.inr ?_
      intro u hu
      obtain ⟨i, hi, rfl⟩ := List.mem_iff_getElem.1 hu
      have hall := scanNext_none_all now r.tokens.length r hlen hcur hscan
      have hj := hall ((i + r.tokens.length - r.current_index) % r.tokens.length)
        (Nat.mod_lt _ hlen)
      have hidx : (r.current_index + (i + r.tokens.length - r.current_index)
          % r.tokens.length) % r.tokens.length = i := by
        rw [Nat.add_mod_mod]
        have he : r.current_index + (i + r.tokens.length - r.current_index)
            = i + r.tokens.length := by omega
        rw [he, Nat.add_mod_right, Nat.mod_eq_of_lt hi]
      rw [hidx] at hj
      rwa [List.getD_eq_getElem r.tokens "" hi] at hj
  · intro r now hlen hcur hall
    have hnone := scanNext_none_of now r.tokens.length r hlen hcur hall
    unfold getNextToken
    rw [hnone]
    refine ⟨rfl, rfl, ?_⟩
    intro u hu
    unfold updStats resetAllTokens bumpUse
    dsimp only
    split
    · exact ⟨rfl, rfl⟩
    · exact ⟨rfl, rfl⟩

theorem claim_C7_witness :
    (getNextToken rotatorAfterFiveFailures 20).1
        = rotatorAfterFiveFailures.tokens.getD 0 ""
      ∧ (getNextToken rotatorAfterFiveFailures 20).2.current_index
          = 1 % rotatorAfterFiveFailures.tokens.length := by
  obtain ⟨h1, h2, -⟩ := claim_C7.2.2 rotatorAfterFiveFailures 20
    (by decide) (by decide) (by decide)
  exact ⟨h1, h2⟩

/-! ### TTS client lemmas -/

theorem range_succ_failBlocks (oracle : Nat → String × AttemptOutcome) (attempt i : Nat) :
    ((List.range (i + 1)).map (fun k => failBlock oracle (attempt + k))).flatten
      = failBlock oracle attempt
        ++ ((List.range i).map (fun k => failBlock oracle (attempt + 1 + k))).flatten := by
  rw [List.range_succ_eq_map]
  simp only [List.map_cons, List.map_map, List.flatten_cons, Nat.add_zero]
  congr 1
  apply congrArg List.flatten
  apply List.map_congr_left
  intro k _
  show failBlock oracle (attempt + (k + 1)) = failBlock oracle (attempt + 1 + k)
  congr 1
  omega

theorem countTokenReqs_synthLoop (oracle : Nat → String × AttemptOutcome) :
    ∀ (remaining attempt : Nat) (le : Option String),
      countTokenReqs (synthLoop oracle remaining attempt le).1 ≤ remaining := by
  intro remaining
  induction remaining with
  | zero => intro attempt le; simp [synthLoop, countTokenReqs]
  | succ r ih =>
    intro attempt le
    unfold synthLoop
    rcases hor : oracle attempt with ⟨tok, out⟩
    cases out with
    | ok audio => simp [countTokenReqs, isTokenReq]
    | err e =>
      dsimp only
      have htail := ih (attempt + 1) (some e)
      by_cases hr : 0 < r
      · rw [if_pos hr]
        simp [countTokenReqs, isTokenReq, List.filter_append] at htail ⊢
        omega
      · rw [if_neg hr]
        simp [countTokenReqs, isTokenReq, List.filter_append] at htail ⊢
        omega

theorem synthLoop_ok (oracle : Nat → String × AttemptOutcome) :
    ∀ (i attempt remaining : Nat) (le : Option String),
      i < remaining →
      (∀ j, attempt ≤ j → j < attempt + i → isOkOutcome (oracle j).2 = false) →
      isOkOutcome (oracle (attempt + i)).2 = true →
      synthLoop oracle remaining attempt le
        = (((List.range i).map (fun k => failBlock oracle (attempt + k))).flatten
            ++ [SynthEvent.getToken (oracle (attempt + i)).1,
                SynthEvent.reportSuccess (oracle (attempt + i)).1],
           Except.ok (okAudio (oracle (attempt + i)).2)) := by
  intro i
  induction i with
  | zero =>
    intro attempt remaining le hlt hfail hok
    cases remaining with
    | zero => omega
    | succ r =>
      unfold synthLoop
      rcases hor : oracle attempt with ⟨tok, out⟩
      cases out with
      | ok audio => simp [okAudio, hor]
      | err e =>
        rw [Nat.add_zero, hor] at hok
        simp [isOkOutcome] at hok
  | succ i' ih =>
    intro attempt remaining le hlt hfail hok
    cases remaining with
    | zero => omega
    | succ r =>
      unfold synthLoop
      rcases hor : oracle attempt with ⟨tok, out⟩
      cases out with
      | ok audio =>
        have hf := hfail attempt (Nat.le_refl _) (by omega)
        rw [hor] at hf
        simp [isOkOutcome] at hf
      | err e =>
        dsimp only
        have hr : 0 < r := by omega
        rw [if_pos hr]
        have ihh := ih (attempt + 1) r (some e) (by omega)
          (fun j hj1 hj2 => hfail j (by omega) (by omega))
          (by rw [show attempt + 1 + i' = attempt + (i' + 1) from by omega] at *
              exact hok)
        rw [ihh, range_succ_failBlocks]
        rw [show attempt + 1 + i' = attempt + (i' + 1) from by omega]
        simp [failBlock, hor, errText, List.append_assoc]

theorem synthLoop_err (oracle : Nat → String × AttemptOutcome) :
    ∀ (n attempt : Nat) (le : Option String),
      (∀ j, attempt ≤ j → j ≤ attempt + n → isOkOutcome (oracle j).2 = false) →
      synthLoop oracle (n + 1) attempt le
        = (((List.range n).map (fun k => failBlock oracle (attempt + k))).flatten
            ++ [SynthEvent.getToken (oracle (attempt + n)).1,
                SynthEvent.reportFailure (oracle (attempt + n)).1
                  (errText (oracle (attempt + n)).2)],
           Except.error ("All TTS request attempts failed: "
             ++ errText (oracle (attempt + n)).2)) := by
  intro n
  induction n with
  | zero =>
    intro attempt le hfail
    have hf := hfail attempt (Nat.le_refl _) (by omega)
    unfold synthLoop
    rcases hor : oracle attempt with ⟨tok, out⟩
    cases out with
    | ok audio =>
      rw [hor] at hf
      simp [isOkOutcome] at hf
    | err e => simp [synthLoop, errText, hor]
  | succ n' ih =>
    intro attempt le hfail
    have hf := hfail attempt (Nat.le_refl _) (by omega)
    unfold synthLoop
    rcases hor : oracle attempt with ⟨tok, out⟩
    cases out with
    | ok audio =>
      rw [hor] at hf
      simp [isOkOutcome] at hf
    | err e =>
      dsimp only
      rw [if_pos (by omega : 0 < n' + 1)]
      have ihh := ih (attempt + 1) (some e)
        (fun j hj1 hj2 => hfail j (by omega) (by omega))
      rw [ihh, range_succ_failBlocks]
      rw [show attempt + 1 + n' = attempt + (n' + 1) from by omega]
      simp [failBlock, hor, errText, List.append_assoc]

/-! ### Claim C8 -/

/-- C8: `synthesize` makes at most `retry_count + 1` attempts (so 3 with
the default `retry_count = 2`); each attempt binds a fresh credential
obtained from the rotator; after every failed attempt except the last it
sleeps `0.5 × 2 ^ attempt` seconds; on the first successful attempt it
reports success to the rotator and returns the response bytes; when all
attempts fail it raises an exhaustion error carrying the last attempt's
error.  The success and exhaustion conjuncts pin down the entire event
sequence: one credential request per attempt, in attempt order, a failure
report and a backoff sleep after each non-final failed attempt, and no
sleep after the final one. -/
theorem claim_C8 :
    (∀ (retry_count : Nat) (oracle : Nat → String × AttemptOutcome),
      countTokenReqs (synthesize retry_count oracle).1 ≤ retry_count + 1)
    ∧ (∀ (retry_count i : Nat) (oracle : Nat → String × AttemptOutcome),
        i ≤ retry_count →
        (∀ j < i, isOkOutcome (oracle j).2 = false) →
        isOkOutcome (oracle i).2 = true →
        synthesize retry_count oracle
          = (((List.range i).map (failBlock oracle)).flatten
              ++ [SynthEvent.getToken (oracle i).1,
                  SynthEvent.reportSuccess (oracle i).1],
             Except.ok (okAudio (oracle i).2)))
    ∧ (∀ (retry_count : Nat) (oracle : Nat → String × AttemptOutcome),
        (∀ j ≤ retry_count, isOkOutcome (oracle j).2 = false) →
        synthesize retry_count oracle
          = (((List.range retry_count).map (failBlock oracle)).flatten
              ++ [SynthEvent.getToken (oracle retry_count).1,
                  SynthEvent.reportFailure (oracle retry_count).1
                    (errText (oracle retry_count).2)],
             Except.error ("All TTS request attempts failed: "
               ++ errText (oracle retry_count).2))) := by
  refine ⟨?_, ?_, ?_⟩
  · intro retry_count oracle
    exact countTokenReqs_synthLoop oracle (retry_count + 1) 0 none
  · intro retry_count i oracle hi hfail hok
    have h := synthLoop_ok oracle i 0 (retry_count + 1) none (by omega)
      (fun j hj1 hj2 => hfail j (by omega))
      (by simpa using hok)
    simpa using h
  · intro retry_count oracle hfail
    have h := synthLoop_err oracle retry_count 0 none
      (fun j hj1 hj2 => hfail j (by omega))
    simpa using h

theorem claim_C8_witness :
    synthesize 2 witnessOracle
      = ([SynthEvent.getToken "tA", SynthEvent.reportFailure "tA" "boom",
          SynthEvent.sleep ((1 / 2 : ℚ) * 2 ^ 0),
          SynthEvent.getToken "tB", SynthEvent.reportSuccess "tB"],
         Except.ok [1]) := by
  have h := claim_C8.2.1 2 1 witnessOracle (by omega) (by decide) (by decide)
  rw [h]
  rw [show List.range 1 = [0] from rfl]
  simp [witnessOracle, failBlock, errText, okAudio]

/-! ### Association-list lemmas -/

theorem alookup_eq_none {α : Type} :
    ∀ (l : List (String × α)) (k : String),
      alookup l k = none ↔ k ∉ l.map Prod.fst
  | [], k => by simp [alookup]
  | (k', v) :: rest, k => by
    by_cases h : k = k'
    · subst h; simp [alookup]
    · simp [alookup, h, alookup_eq_none rest k]

theorem alookup_mem {α : Type} :
    ∀ (l : List (String × α)) (k : String) (v : α),
      alookup l k = some v → (k, v) ∈ l
  | [], k, v => by simp [alookup]
  | (k', v') :: rest, k, v => by
    intro hv
    by_cases h : k = k'
    · subst h
      rw [alookup, if_pos rfl] at hv
      cases hv
      exact List.mem_cons_self _ _
    · rw [alookup, if_neg h] at hv
      exact List.mem_cons_of_mem _ (alookup_mem rest k v hv)

theorem alookup_append_some {α : Type} :
    ∀ (l1 l2 : List (String × α)) (k : String) (v : α),
      alookup l1 k = some v → alookup (l1 ++ l2) k = some v
  | [], _, k, v => by simp [alookup]
  | (k', v') :: rest, l2, k, v => by
    by_cases h : k = k' <;> simp [alookup, h] <;> exact alookup_append_some rest l2 k v

theorem alookup_append_none {α : Type} :
    ∀ (l1 l2 : List (String × α)) (k : String),
      alookup l1 k = none → alookup (l1 ++ l2) k = alookup l2 k
  | [], _, k => by simp [alookup]
  | (k', v') :: rest, l2, k => by
    by_cases h : k = k' <;> simp [alookup, h] <;> exact alookup_append_none rest l2 k

theorem alookup_filter_keys {α : Type} (ks : List String) :
    ∀ (l : List (String × α)) (k : String), k ∉ ks →
      alookup (l.filter (fun p => p.1 ∉ ks)) k = alookup l k
  | [], k, _ => rfl
  | (k', v') :: rest, k, hk => by
    rw [List.filter_cons]
    by_cases hmem : k' ∈ ks
    · rw [if_neg (by simpa using hmem)]
      have hne : k ≠ k' := fun he => hk (he ▸ hmem)
      rw [alookup_filter_keys ks rest k hk, alookup, if_neg hne]
    · rw [if_pos (by simpa using hmem)]
      by_cases h : k = k'
      · subst h
        rw [alookup, if_pos rfl, alookup, if_pos rfl]
      · rw [alookup, if_neg h, alookup, if_neg h]
        exact alookup_filter_keys ks rest k hk

theorem alookup_filter_keep {α : Type} (q : String × α → Bool) :
    ∀ (l : List (String × α)) (k : String) (v : α),
      alookup l k = some v → q (k, v) = true →
      alookup (l.filter q) k = some v
  | [], k, v => by simp [alookup]
  | (k', v') :: rest, k, v => by
    intro hl hq
    by_cases h : k = k'
    · subst h
      rw [alookup, if_pos rfl] at hl
      cases hl
      rw [List.filter_cons, if_pos (by simpa using hq), alookup, if_pos rfl]
    · rw [alookup, if_neg h] at hl
      rw [List.filter_cons]
      split
      · rw [alookup, if_neg h]
        exact alookup_filter_keep q rest k v hl hq
      · exact alookup_filter_keep q rest k v hl hq

theorem updateEntry_keys (cache : List (String × TTSCacheEntry)) (k : String)
    (g : TTSCacheEntry → TTSCacheEntry) :
    (updateEntry cache k g).map Prod.fst = cache.map Prod.fst := by
  induction cache with
  | nil => rfl
  | cons p rest ih =>
    by_cases h : p.1 = k <;> simp [updateEntry, h] at ih ⊢ <;> exact ih

theorem alookup_updateEntry_self (cache : List (String × TTSCacheEntry)) (k : String)
    (g : TTSCacheEntry → TTSCacheEntry) :
    alookup (updateEntry cache k g) k = (alookup cache k).map g := by
  induction cache with
  | nil => rfl
  | cons p rest ih =>
    obtain ⟨k', v'⟩ := p
    rw [updateEntry, List.map_cons]
    by_cases h : k' = k
    · subst h
      rw [if_pos rfl]
      rw [alookup, if_pos rfl, alookup, if_pos rfl]
      rfl
    · have h' : k ≠ k' := fun he => h he.symm
      rw [if_neg h]
      rw [alookup, if_neg h', alookup, if_neg h']
      exact ih

theorem alookup_updateEntry_other (cache : List (String × TTSCacheEntry)) (k key : String)
    (g : TTSCacheEntry → TTSCacheEntry) (h : key ≠ k) :
    alookup (updateEntry cache k g) key = alookup cache key := by
  induction cache with
  | nil => rfl
  | cons p rest ih =>
    obtain ⟨k', v'⟩ := p
    rw [updateEntry, List.map_cons]
    by_cases hk : k' = k
    · subst hk
      rw [if_pos rfl]
      rw [alookup, if_neg h, alookup, if_neg h]
      exact ih
    · rw [if_neg hk]
      by_cases hkey : key = k'
      · subst hkey
        rw [alookup, if_pos rfl, alookup, if_pos rfl]
      · rw [alookup, if_neg hkey, alookup, if_neg hkey]
        exact ih

/-! ### Eviction lemmas -/

theorem evictRemoved_of_lt (cache : List (String × TTSCacheEntry)) (ms : Nat)
    (h : ¬ ms ≤ cache.length) : evictRemoved cache ms = [] := by
  rw [evictRemoved, if_neg h]

theorem evictIfNeeded_of_lt (cache : List (String × TTSCacheEntry)) (ms : Nat)
    (h : ¬ ms ≤ cache.length) : evictIfNeeded cache ms = cache := by
  rw [evictIfNeeded]
  rw [List.filter_eq_self]
  intro p _
  simp [evictRemoved_of_lt cache ms h]

theorem evictIfNeeded_sublist (cache : List (String × TTSCacheEntry)) (ms : Nat) :
    (evictIfNeeded cache ms).Sublist cache := List.filter_sublist cache

/-- Keys of the sorted cache split into removed (take) and kept (drop)
parts, disjoint when the keys are distinct. -/
theorem evict_split (cache : List (String × TTSCacheEntry)) (ms : Nat)
    (hnd : (cache.map Prod.fst).Nodup) (hms : ms ≤ cache.length) :
    ((List.insertionSort byCreated cache).take (max 1 (cache.length / 10))).filter
        (fun p => p.1 ∉ evictRemoved cache ms) = []
    ∧ ((List.insertionSort byCreated cache).drop (max 1 (cache.length / 10))).filter
        (fun p => p.1 ∉ evictRemoved cache ms)
      = (List.insertionSort byCreated cache).drop (max 1 (cache.length / 10)) := by
  have hperm : List.Perm (List.insertionSort byCreated cache) cache :=
    List.perm_insertionSort byCreated cache
  have hrem : evictRemoved cache ms
      = ((List.insertionSort byCreated cache).take (max 1 (cache.length / 10))).map
        Prod.fst := by
    rw [evictRemoved, if_pos hms]
  have hndsrt : ((List.insertionSort byCreated cache).map Prod.fst).Nodup :=
    ((hperm.map Prod.fst).nodup_iff).2 hnd
  have hsplitkeys : (List.insertionSort byCreated cache).map Prod.fst
      = ((List.insertionSort byCreated cache).take (max 1 (cache.length / 10))).map Prod.fst
        ++ ((List.insertionSort byCreated cache).drop (max 1 (cache.length / 10))).map
          Prod.fst := by
    rw [← List.map_append, List.take_append_drop]
  rw [hsplitkeys] at hndsrt
  have hdisj := (List.nodup_append.1 hndsrt).2.2
  constructor
  · rw [List.filter_eq_nil_iff]
    intro x hx
    simp only [hrem, decide_eq_true_eq, Decidable.not_not, not_not]
    exact List.mem_map_of_mem Prod.fst hx
  · rw [List.filter_eq_self]
    intro y hy
    simp only [hrem, decide_eq_true_eq]
    intro hmem
    exact hdisj hmem (List.mem_map_of_mem Prod.fst hy)

theorem evictIfNeeded_length (cache : List (String × TTSCacheEntry)) (ms : Nat)
    (hnd : (cache.map Prod.fst).Nodup) (hms : ms ≤ cache.length) :
    (evictIfNeeded cache ms).length = cache.length - max 1 (cache.length / 10) := by
  have hperm : List.Perm (List.insertionSort byCreated cache) cache :=
    List.perm_insertionSort byCreated cache
  obtain ⟨htake, hdrop⟩ := evict_split cache ms hnd hms
  have hfp : List.Perm (evictIfNeeded cache ms)
      ((List.insertionSort byCreated cache).filter
        (fun p => p.1 ∉ evictRemoved cache ms)) :=
    (hperm.filter _).symm
  have hlen := hfp.length_eq
  rw [hlen]
  conv_lhs =>
    rw [← List.take_append_drop (max 1 (cache.length / 10))
      (List.insertionSort byCreated cache), List.filter_append, htake, hdrop,
      List.nil_append]
  rw [List.length_drop, hperm.length_eq]

theorem evictIfNeeded_oldest (cache : List (String × TTSCacheEntry)) (ms : Nat)
    (hnd : (cache.map Prod.fst).Nodup) (hms : ms ≤ cache.length) :
    ∀ x ∈ cache, x.1 ∈ evictRemoved cache ms →
      ∀ y ∈ evictIfNeeded cache ms, x.2.created_at ≤ y.2.created_at := by
  intro x hx hxrem y hy
  have hperm : List.Perm (List.insertionSort byCreated cache) cache :=
    List.perm_insertionSort byCreated cache
  have hsorted : List.Sorted byCreated (List.insertionSort byCreated cache) :=
    List.sorted_insertionSort byCreated cache
  have hrem : evictRemoved cache ms
      = ((List.insertionSort byCreated cache).take (max 1 (cache.length / 10))).map
        Prod.fst := by
    rw [evictRemoved, if_pos hms]
  have hndsrt : ((List.insertionSort byCreated cache).map Prod.fst).Nodup :=
    ((hperm.map Prod.fst).nodup_iff).2 hnd
  have hsplitkeys : (List.insertionSort byCreated cache).map Prod.fst
      = ((List.insertionSort byCreated cache).take (max 1 (cache.length / 10))).map Prod.fst
        ++ ((List.insertionSort byCreated cache).drop (max 1 (cache.length / 10))).map
          Prod.fst := by
    rw [← List.map_append, List.take_append_drop]
  rw [hsplitkeys] at hndsrt
  have hdisj := (List.nodup_append.1 hndsrt).2.2
  have hxsrt : x ∈ List.insertionSort byCreated cache := hperm.mem_iff.2 hx
  have hxsplit : x ∈ (List.insertionSort byCreated cache).take (max 1 (cache.length / 10))
      ++ (List.insertionSort byCreated cache).drop (max 1 (cache.length / 10)) := by
    rw [List.take_append_drop]
    exact hxsrt
  have hxtake : x ∈ (List.insertionSort byCreated cache).take (max 1 (cache.length / 10)) := by
    rcases List.mem_append.1 hxsplit with h | h
    · exact h
    · exact absurd (List.mem_map_of_mem Prod.fst h)
        (fun hc => hdisj (hrem ▸ hxrem) hc)
  obtain ⟨hycache, hyfil⟩ := List.mem_filter.1 hy
  have hysrt : y ∈ List.insertionSort byCreated cache := hperm.mem_iff.2 hycache
  have hysplit : y ∈ (List.insertionSort byCreated cache).take (max 1 (cache.length / 10))
      ++ (List.insertionSort byCreated cache).drop (max 1 (cache.length / 10)) := by
    rw [List.take_append_drop]
    exact hysrt
  have hydrop : y ∈ (List.insertionSort byCreated cache).drop (max 1 (cache.length / 10)) := by
    rcases List.mem_append.1 hysplit with h | h
    · exfalso
      have : y.1 ∈ evictRemoved cache ms := by
        rw [hrem]
        exact List.mem_map_of_mem Prod.fst h
      simp only [decide_eq_true_eq] at hyfil
      exact hyfil this
    · exact h
  have hpw := hsorted
  rw [List.Sorted, ← List.take_append_drop (max 1 (cache.length / 10))
    (List.insertionSort byCreated cache), List.pairwise_append] at hpw
  exact hpw.2.2 x hxtake y hydrop

/-! ### Cache-size invariant (claim C4) -/

theorem submitOp_of_some (s : CMState) (text model : String) (now : Nat)
    (v : TTSCacheEntry) (h : alookup s.cache (cacheKey text model) = some v) :
    submitOp s text model now = (s, cacheKey text model) := by
  simp only [submitOp, h]

theorem submitOp_of_none (s : CMState) (text model : String) (now : Nat)
    (h : alookup s.cache (cacheKey text model) = none) :
    submitOp s text model now =
      ({ s with
          cache := evictIfNeeded s.cache s.max_size
            ++ [(cacheKey text model, newEntry text model now)],
          tasks := s.tasks ++ [(cacheKey text model, TaskStage.spawned)] },
        cacheKey text model) := by
  simp only [submitOp, h]

theorem submitOp_key (s : CMState) (text model : String) (now : Nat) :
    (submitOp s text model now).2 = cacheKey text model := by
  cases h : alookup s.cache (cacheKey text model) <;> simp [submitOp, h]

theorem submitOp_segmap (s : CMState) (text model : String) (now : Nat) :
    (submitOp s text model now).1.segment_map = s.segment_map := by
  cases h : alookup s.cache (cacheKey text model) <;> simp [submitOp, h]

theorem submitOp_config (s : CMState) (text model : String) (now : Nat) :
    (submitOp s text model now).1.max_size = s.max_size
      ∧ (submitOp s text model now).1.ttl = s.ttl := by
  cases h : alookup s.cache (cacheKey text model) <;> simp [submitOp, h]

theorem submit_cache_nodup (cache : List (String × TTSCacheEntry)) (ms : Nat)
    (key : String) (e : TTSCacheEntry)
    (hnd : (cache.map Prod.fst).Nodup) (hkey : key ∉ cache.map Prod.fst) :
    (((evictIfNeeded cache ms) ++ [(key, e)]).map Prod.fst).Nodup := by
  rw [List.map_append]
  rw [List.nodup_append]
  have hsub : ((evictIfNeeded cache ms).map Prod.fst).Sublist (cache.map Prod.fst) :=
    (evictIfNeeded_sublist cache ms).map Prod.fst
  refine ⟨hnd.sublist hsub, by simp, ?_⟩
  intro a ha hb
  simp only [List.map_cons, List.map_nil, List.mem_singleton] at hb
  subst hb
  exact hkey (hsub.subset ha)

theorem submit_sizeInv (s : CMState) (text model : String) (now : Nat)
    (h : CacheSizeInv s) : CacheSizeInv (submitOp s text model now).1 := by
  obtain ⟨hlen, hnd, hms⟩ := h
  cases halo : alookup s.cache (cacheKey text model) with
  | some v => rw [submitOp_of_some s text model now v halo]; exact ⟨hlen, hnd, hms⟩
  | none =>
    rw [submitOp_of_none s text model now halo]
    have hkey : cacheKey text model ∉ s.cache.map Prod.fst :=
      (alookup_eq_none s.cache (cacheKey text model)).1 halo
    refine ⟨?_, submit_cache_nodup s.cache s.max_size _ _ hnd hkey, hms⟩
    by_cases hcap : s.max_size ≤ s.cache.length
    · have hlen2 := evictIfNeeded_length s.cache s.max_size hnd hcap
      have h1 : 1 ≤ max 1 (s.cache.length / 10) := le_max_left _ _
      simp only [List.length_append, List.length_cons, List.length_nil]
      omega
    · rw [evictIfNeeded_of_lt s.cache s.max_size hcap]
      simp only [List.length_append, List.length_cons, List.length_nil]
      omega

theorem sws_sizeInv (model : String) (now : Nat) :
    ∀ (segs : List String) (s : CMState) (acc : List String),
      CacheSizeInv s → CacheSizeInv (segs.foldl (swsStep model now) (s, acc)).1
  | [], s, acc, h => h
  | seg :: rest, s, acc, h => by
    rw [List.foldl_cons]
    by_cases hc : seg ≠ "" ∧ pyStripS seg ≠ ""
    · rw [show swsStep model now (s, acc) seg
          = ((submitOp s (pyStripS seg) model now).1,
             acc ++ [(submitOp s (pyStripS seg) model now).2]) from by
        simp [swsStep, hc]]
      exact sws_sizeInv model now rest _ _ (submit_sizeInv s (pyStripS seg) model now h)
    · rw [show swsStep model now (s, acc) seg = (s, acc) from by simp [swsStep, hc]]
      exact sws_sizeInv model now rest s acc h

theorem sizeInv_step (s : CMState) (st : CMStep) (h : CacheSizeInv s) :
    CacheSizeInv (execStep s st) := by
  obtain ⟨hlen, hnd, hms⟩ := h
  cases st with
  | submit text model now => exact submit_sizeInv s text model now ⟨hlen, hnd, hms⟩
  | submitSegments ft segs m now =>
    show CacheSizeInv (submitWithSegments s ft segs m now).1
    have hfold := sws_sizeInv m now segs s [] ⟨hlen, hnd, hms⟩
    unfold submitWithSegments
    split
    next s1 heq =>
      rw [heq] at hfold
      exact hfold
    next s1 k ks heq =>
      rw [heq] at hfold
      exact hfold
  | taskRun i =>
    show CacheSizeInv (taskRun s i)
    unfold taskRun
    split
    · split
      · exact ⟨hlen, hnd, hms⟩
      · exact ⟨by simpa [updateEntry] using hlen,
          by rw [updateEntry_keys]; exact hnd, hms⟩
    · exact ⟨hlen, hnd, hms⟩
  | taskCommit i o now =>
    show CacheSizeInv (taskCommit s i o now)
    unfold taskCommit
    split
    · exact ⟨by simpa [updateEntry] using hlen,
        by rw [updateEntry_keys]; exact hnd, hms⟩
    · exact ⟨hlen, hnd, hms⟩
  | cleanup now =>
    refine ⟨le_trans ?_ hlen, ?_, hms⟩
    · exact (List.filter_sublist s.cache).length_le
    · exact hnd.sublist ((List.filter_sublist s.cache).map Prod.fst)
  | clear => exact ⟨by show (clearOp s).cache.length ≤ (clearOp s).max_size; simp [clearOp],
      by show ((clearOp s).cache.map Prod.fst).Nodup; simp [clearOp], hms⟩

theorem sizeInv_trace : ∀ (tr : List CMStep) (s : CMState),
    CacheSizeInv s → CacheSizeInv (execTrace s tr)
  | [], _, h => h
  | st :: tr, s, h => by
    rw [execTrace, List.foldl_cons]
    exact sizeInv_trace tr (execStep s st) (sizeInv_step s st h)

theorem sws_config (model : String) (now : Nat) :
    ∀ (segs : List String) (s : CMState) (acc : List String),
      (segs.foldl (swsStep model now) (s, acc)).1.max_size = s.max_size
        ∧ (segs.foldl (swsStep model now) (s, acc)).1.ttl = s.ttl
  | [], _, _ => ⟨rfl, rfl⟩
  | seg :: rest, s, acc => by
    rw [List.foldl_cons]
    by_cases hc : seg ≠ "" ∧ pyStripS seg ≠ ""
    · rw [show swsStep model now (s, acc) seg
          = ((submitOp s (pyStripS seg) model now).1,
             acc ++ [(submitOp s (pyStripS seg) model now).2]) from by
        simp [swsStep, hc]]
      have h1 := sws_config model now rest (submitOp s (pyStripS seg) model now).1
        (acc ++ [(submitOp s (pyStripS seg) model now).2])
      have h2 := submitOp_config s (pyStripS seg) model now
      exact ⟨h1.1.trans h2.1, h1.2.trans h2.2⟩
    · rw [show swsStep model now (s, acc) seg = (s, acc) from by simp [swsStep, hc]]
      exact sws_config model now rest s acc

theorem execStep_config (s : CMState) (st : CMStep) :
    (execStep s st).max_size = s.max_size ∧ (execStep s st).ttl = s.ttl := by
  cases st with
  | submit text model now => exact submitOp_config s text model now
  | submitSegments ft segs m now =>
    show (submitWithSegments s ft segs m now).1.max_size = s.max_size
      ∧ (submitWithSegments s ft segs m now).1.ttl = s.ttl
    have hf := sws_config m now segs s []
    unfold submitWithSegments
    split
    next s1 heq => rw [heq] at hf; exact hf
    next s1 k ks heq => rw [heq] at hf; exact hf
  | taskRun i =>
    show (taskRun s i).max_size = s.max_size ∧ (taskRun s i).ttl = s.ttl
    unfold taskRun
    split
    · split
      · exact ⟨rfl, rfl⟩
      · exact ⟨rfl, rfl⟩
    · exact ⟨rfl, rfl⟩
  | taskCommit i o now =>
    show (taskCommit s i o now).max_size = s.max_size
      ∧ (taskCommit s i o now).ttl = s.ttl
    unfold taskCommit
    split
    · exact ⟨rfl, rfl⟩
    · exact ⟨rfl, rfl⟩
  | cleanup now => exact ⟨rfl, rfl⟩
  | clear => exact ⟨rfl, rfl⟩

theorem execTrace_config : ∀ (tr : List CMStep) (s : CMState),
    (execTrace s tr).max_size = s.max_size ∧ (execTrace s tr).ttl = s.ttl
  | [], _ => ⟨rfl, rfl⟩
  | st :: tr, s => by
    show (execTrace (execStep s st) tr).max_size = s.max_size
      ∧ (execTrace (execStep s st) tr).ttl = s.ttl
    have h1 := execStep_config s st
    have h2 := execTrace_config tr (execStep s st)
    exact ⟨h2.1.trans h1.1, h2.2.trans h1.2⟩

/-- C4 counterexample: with `max_size = 15`, the sixteenth submit finds the
table at capacity (15 entries) and evicts `max(1, 15 // 10) = 1` entry, not
`⌈15/10⌉ = 2` as claimed: afterwards 15 entries remain (the claim would
leave 14), the oldest entry is gone and the second-oldest survives. -/
theorem claim_C4_counterexample :
    (execTrace (initCM 15 3600) (evictTrace.take 15)).cache.length = 15
    ∧ (execTrace (initCM 15 3600) evictTrace).cache.length = 15
    ∧ alookup (execTrace (initCM 15 3600) evictTrace).cache (cacheKey "0" "M") = none
    ∧ (alookup (execTrace (initCM 15 3600) evictTrace).cache (cacheKey "1" "M")).isSome
        = true
    ∧ (15 : Nat) ≠ 15 - 2 + 1 := by
  refine ⟨by decide, by decide, by decide, by decide, by decide⟩

/-- C4 (amended): when the table is at capacity (and the cache keys are
distinct, as they always are), eviction removes exactly the oldest
`max(1, ⌊n/10⌋)` entries by creation timestamp — `⌊·⌋`, not `⌈·⌉` — where
`n` is the current table size; every evicted entry is at least as old as
every surviving one; and in every state reachable by any operation
sequence from an empty manager with `max_size ≥ 1`, the cache holds at
most `max_size` entries. -/
theorem claim_C4 :
    (∀ (cache : List (String × TTSCacheEntry)) (ms : Nat),
      (cache.map Prod.fst).Nodup → ms ≤ cache.length →
      (evictIfNeeded cache ms).length = cache.length - max 1 (cache.length / 10)
      ∧ (∀ x ∈ cache, x.1 ∈ evictRemoved cache ms →
          ∀ y ∈ evictIfNeeded cache ms, x.2.created_at ≤ y.2.created_at))
    ∧ (∀ (ms ttl : Nat) (tr : List CMStep), 1 ≤ ms →
        (execTrace (initCM ms ttl) tr).cache.length ≤ ms) := by
  constructor
  · intro cache ms hnd hms
    exact ⟨evictIfNeeded_length cache ms hnd hms,
      evictIfNeeded_oldest cache ms hnd hms⟩
  · intro ms ttl tr hms
    have h := sizeInv_trace tr (initCM ms ttl)
      ⟨by simp [initCM], by simp [initCM], hms⟩
    have hcfg := (execTrace_config tr (initCM ms ttl)).1
    have := h.1
    rw [hcfg] at this
    exact this

theorem claim_C4_witness :
    (evictIfNeeded demoCache 2).length = 1
    ∧ (execTrace (initCM 1 3600)
        [CMStep.submit "a" "M" 1, CMStep.submit "b" "M" 2]).cache.length ≤ 1 :=
  ⟨((claim_C4.1 demoCache 2 (by decide) (by decide)).1).trans (by decide),
   claim_C4.2 1 3600 _ (by decide)⟩

/-- C1 (code bug): the reachable state after `badTrace` (with
`max_size = 1`) holds an entry whose status is `GENERATING` while its
audio is present and its completion signal is set — violating
"audio present iff COMPLETED" and "signal set iff terminal" — and the
entry reached this point through a COMPLETED → GENERATING backward
transition.  The code's `if entry:` guard in `_generate` is meant to make
a task whose entry vanished exit silently (spec §4.4), but it does not
notice that the key now names a different entry. -/
theorem claim_C1 :
    (alookup (execTrace (initCM 1 3600) badTrace).cache (cacheKey "a" "M")).map
        (fun e => e.status) = some CacheStatus.GENERATING
    ∧ (alookup (execTrace (initCM 1 3600) badTrace).cache (cacheKey "a" "M")).map
        (fun e => e.audio.isSome) = some true
    ∧ (alookup (execTrace (initCM 1 3600) badTrace).cache (cacheKey "a" "M")).map
        (fun e => e.eventSet) = some true
    ∧ (alookup (execTrace (initCM 1 3600) (badTrace.take 5)).cache
        (cacheKey "a" "M")).map (fun e => e.status) = some CacheStatus.COMPLETED := by
  refine ⟨by decide, by decide, by decide, by decide⟩

theorem countKey_set (k : String) (a b : TaskStage) (key : String) :
    ∀ (l : List (String × TaskStage)) (i : Nat), l.get? i = some (k, a) →
      ((l.set i (k, b)).filter (fun p => p.1 = key)).length
        = (l.filter (fun p => p.1 = key)).length
  | [], i => by simp
  | p :: rest, 0 => by
    intro h
    rw [List.get?_cons_zero] at h
    cases h
    rw [List.set_cons_zero]
    by_cases hk : k = key <;> simp [List.filter_cons, hk]
  | p :: rest, i + 1 => by
    intro h
    rw [List.get?_cons_succ] at h
    rw [List.set_cons_succ]
    by_cases hp : p.1 = key <;>
      simp [List.filter_cons, hp, countKey_set k a b key rest i h]

theorem submit_tasksInv (s : CMState) (text model : String) (now : Nat)
    (hI : TasksInv s)
    (hsafe : alookup s.cache (cacheKey text model) = none →
      ∀ k ∈ evictRemoved s.cache s.max_size, k ∉ liveKeys s) :
    TasksInv (submitOp s text model now).1 := by
  obtain ⟨h1, h2⟩ := hI
  cases halo : alookup s.cache (cacheKey text model) with
  | some v => rw [submitOp_of_some s text model now v halo]; exact ⟨h1, h2⟩
  | none =>
    rw [submitOp_of_none s text model now halo]
    have hsafe' := hsafe halo
    have hkeyabs : cacheKey text model ∉ s.cache.map Prod.fst :=
      (alookup_eq_none s.cache (cacheKey text model)).1 halo
    have hfilnone : alookup (evictIfNeeded s.cache s.max_size) (cacheKey text model)
        = none := by
      rw [alookup_eq_none]
      intro hc
      exact hkeyabs (((evictIfNeeded_sublist s.cache s.max_size).map Prod.fst).subset hc)
    constructor
    · intro p hp
      rcases List.mem_append.1 hp with hp | hp
      · have hold := h1 p hp
        have hlive : p.1 ∈ liveKeys s := List.mem_map_of_mem Prod.fst hp
        have hnr : p.1 ∉ evictRemoved s.cache s.max_size :=
          fun hc => hsafe' p.1 hc hlive
        cases hv : alookup s.cache p.1 with
        | none => exact absurd hv hold
        | some v =>
          have hfil : alookup (evictIfNeeded s.cache s.max_size) p.1 = some v := by
            rw [show evictIfNeeded s.cache s.max_size
                = s.cache.filter (fun q => q.1 ∉ evictRemoved s.cache s.max_size)
              from rfl, alookup_filter_keys _ _ _ hnr]
            exact hv
          rw [alookup_append_some _ _ _ v hfil]
          simp
      · simp only [List.mem_singleton] at hp
        subst hp
        rw [alookup_append_none _ _ _ hfilnone]
        simp [alookup]
    · intro k
      show ((s.tasks ++ [(cacheKey text model, TaskStage.spawned)]).filter
        (fun p => p.1 = k)).length ≤ 1
      rw [List.filter_append, List.length_append]
      by_cases hk : cacheKey text model = k
      · subst hk
        have hzero : (s.tasks.filter
            (fun p => p.1 = cacheKey text model)).length = 0 := by
          rw [List.length_eq_zero, List.filter_eq_nil_iff]
          intro p hp
          simp only [decide_eq_true_eq]
          intro hpk
          exact (h1 p hp) (by rw [hpk]; exact halo)
        rw [hzero]
        simp [List.filter_cons]
      · have hone : ([((cacheKey text model : String), TaskStage.spawned)].filter
            (fun p => p.1 = k)).length = 0 := by
          simp [List.filter_cons, hk]
        rw [hone]
        have := h2 k
        rw [countTasks] at this
        omega

theorem taskRun_tasksInv (s : CMState) (i : Nat) (hI : TasksInv s) :
    TasksInv (taskRun s i) := by
  obtain ⟨h1, h2⟩ := hI
  unfold taskRun
  split
  next k htask =>
    cases hv : alookup s.cache k with
    | none =>
      dsimp only
      refine ⟨?_, ?_⟩
      · intro p hp
        exact h1 p ((List.eraseIdx_sublist s.tasks i).subset hp)
      · intro key
        show ((s.tasks.eraseIdx i).filter (fun p => p.1 = key)).length ≤ 1
        have := h2 key
        rw [countTasks] at this
        exact le_trans (((List.eraseIdx_sublist s.tasks i).filter _).length_le) this
    | some v =>
      dsimp only
      refine ⟨?_, ?_⟩
      · intro p hp
        rcases List.mem_or_eq_of_mem_set hp with hp | hp
        · have hold := h1 p hp
          by_cases hpk : p.1 = k
          · rw [hpk, alookup_updateEntry_self, hv]
            simp
          · rw [alookup_updateEntry_other _ _ _ _ hpk]
            exact hold
        · subst hp
          dsimp only
          rw [alookup_updateEntry_self, hv]
          simp
      · intro key
        show ((s.tasks.set i (k, TaskStage.running)).filter
          (fun p => p.1 = key)).length ≤ 1
        rw [countKey_set k TaskStage.spawned TaskStage.running key s.tasks i htask]
        have := h2 key
        rw [countTasks] at this
        exact this
  next h => exact ⟨h1, h2⟩

theorem taskCommit_tasksInv (s : CMState) (i : Nat) (o : Except String Bytes)
    (now : Nat) (hI : TasksInv s) : TasksInv (taskCommit s i o now) := by
  obtain ⟨h1, h2⟩ := hI
  unfold taskCommit
  split
  next k htask =>
    refine ⟨?_, ?_⟩
    · intro p hp
      have hp' := (List.eraseIdx_sublist s.tasks i).subset hp
      have hold := h1 p hp'
      by_cases hpk : p.1 = k
      · rw [hpk, alookup_updateEntry_self]
        cases hv : alookup s.cache k with
        | none => exact absurd (hpk ▸ hv) hold
        | some v => simp
      · rw [alookup_updateEntry_other _ _ _ _ hpk]
        exact hold
    · intro key
      show ((s.tasks.eraseIdx i).filter (fun p => p.1 = key)).length ≤ 1
      have := h2 key
      rw [countTasks] at this
      exact le_trans (((List.eraseIdx_sublist s.tasks i).filter _).length_le) this
  next h => exact ⟨h1, h2⟩

theorem cleanup_tasksInv (s : CMState) (now : Nat) (hI : TasksInv s)
    (hsafe : ∀ p ∈ s.cache, s.ttl < now - p.2.created_at → p.1 ∉ liveKeys s) :
    TasksInv (cleanupExpired s now) := by
  obtain ⟨h1, h2⟩ := hI
  constructor
  · intro p hp
    have hold := h1 p hp
    cases hv : alookup s.cache p.1 with
    | none => exact absurd hv hold
    | some v =>
      have hmem : (p.1, v) ∈ s.cache := alookup_mem s.cache p.1 v hv
      have hkeep : ¬ s.ttl < now - v.created_at := by
        intro hexp
        exact hsafe (p.1, v) hmem hexp (List.mem_map_of_mem Prod.fst hp)
      show alookup (s.cache.filter (fun q => ¬ s.ttl < now - q.2.created_at)) p.1 ≠ none
      rw [alookup_filter_keep _ s.cache p.1 v hv (by simpa using hkeep)]
      simp
  · intro key
    exact h2 key

theorem clear_tasksInv (s : CMState) (hI : TasksInv s)
    (hsafe : ∀ p ∈ s.cache, p.1 ∉ liveKeys s) : TasksInv (clearOp s) := by
  obtain ⟨h1, h2⟩ := hI
  have htasks : s.tasks = [] := by
    rw [List.eq_nil_iff_forall_not_mem]
    intro p hp
    have hold := h1 p hp
    cases hv : alookup s.cache p.1 with
    | none => exact hold hv
    | some v =>
      exact hsafe (p.1, v) (alookup_mem s.cache p.1 v hv)
        (List.mem_map_of_mem Prod.fst hp)
  constructor
  · intro p hp
    rw [show (clearOp s).tasks = s.tasks from rfl, htasks] at hp
    cases hp
  · intro key
    show ((clearOp s).tasks.filter (fun p => p.1 = key)).length ≤ 1
    rw [show (clearOp s).tasks = s.tasks from rfl, htasks]
    simp

theorem sws_tasksInv (model : String) (now : Nat) :
    ∀ (segs : List String) (s : CMState) (acc : List String),
      TasksInv s → SafeSegs model now s segs →
      TasksInv (segs.foldl (swsStep model now) (s, acc)).1
  | [], _, _, hI, _ => hI
  | seg :: rest, s, acc, hI, hsafe => by
    rw [List.foldl_cons]
    by_cases hc : seg ≠ "" ∧ pyStripS seg ≠ ""
    · rw [show swsStep model now (s, acc) seg
          = ((submitOp s (pyStripS seg) model now).1,
             acc ++ [(submitOp s (pyStripS seg) model now).2]) from by
        simp [swsStep, hc]]
      rw [SafeSegs, if_pos hc] at hsafe
      exact sws_tasksInv model now rest _ _
        (submit_tasksInv s (pyStripS seg) model now hI hsafe.1) hsafe.2
    · rw [show swsStep model now (s, acc) seg = (s, acc) from by simp [swsStep, hc]]
      rw [SafeSegs, if_neg hc] at hsafe
      exact sws_tasksInv model now rest s acc hI hsafe

theorem tasksInv_step (s : CMState) (st : CMStep) (hI : TasksInv s)
    (hsafe : SafeStep s st) : TasksInv (execStep s st) := by
  cases st with
  | submit text model now => exact submit_tasksInv s text model now hI hsafe
  | submitSegments ft segs m now =>
    show TasksInv (submitWithSegments s ft segs m now).1
    have hfold := sws_tasksInv m now segs s [] hI hsafe
    unfold submitWithSegments
    split
    next s1 heq =>
      rw [heq] at hfold
      exact hfold
    next s1 k ks heq =>
      rw [heq] at hfold
      obtain ⟨hf1, hf2⟩ := hfold
      exact ⟨hf1, hf2⟩
  | taskRun i => exact taskRun_tasksInv s i hI
  | taskCommit i o now => exact taskCommit_tasksInv s i o now hI
  | cleanup now => exact cleanup_tasksInv s now hI hsafe
  | clear => exact clear_tasksInv s hI hsafe

theorem tasksInv_safeReachable (ms ttl : Nat) (s : CMState)
    (h : SafeReachable ms ttl s) : TasksInv s := by
  induction h with
  | init =>
    refine ⟨?_, ?_⟩
    · intro p hp
      cases hp
    · intro k
      simp [countTasks, initCM]
  | step st hs hsafe ih => exact tasksInv_step _ st ih hsafe

/-- C2 counterexample: after `submit "a"`, its task starting, eviction of
`"a"` by `submit "b"` (capacity 1) and a resubmit of `"a"`, two generation
tasks for the fingerprint of `"a"` are in flight at once. -/
theorem claim_C2_counterexample :
    countTasks (execTrace (initCM 1 3600) (badTrace.take 4)) (cacheKey "a" "M") = 2
    ∧ ¬ countTasks (execTrace (initCM 1 3600) (badTrace.take 4))
        (cacheKey "a" "M") ≤ 1 := by
  refine ⟨by decide, by decide⟩

/-- C2 (amended): `submit` on an existing fingerprint — whatever its
status, including FAILED — returns the fingerprint and changes nothing (no
new entry, no new task); only on a missing fingerprint does it insert a
fresh PENDING entry and schedule exactly one generation task.  At most one
in-flight generation task exists per fingerprint in every state reachable
by steps that never remove a cache key (by eviction, TTL cleanup or
`clear`) while a generation task for it is in flight; an eviction-and-
resubmit of a fingerprint whose task is still running can create a second
task (see the counterexample). -/
theorem claim_C2 :
    (∀ (s : CMState) (text model : String) (now : Nat) (v : TTSCacheEntry),
      alookup s.cache (cacheKey text model) = some v →
      submitOp s text model now = (s, cacheKey text model))
    ∧ (∀ (s : CMState) (text model : String) (now : Nat),
        alookup s.cache (cacheKey text model) = none →
        (submitOp s text model now).1.tasks
            = s.tasks ++ [(cacheKey text model, TaskStage.spawned)]
          ∧ alookup (submitOp s text model now).1.cache (cacheKey text model)
              = some (newEntry text model now)
          ∧ (submitOp s text model now).2 = cacheKey text model)
    ∧ (∀ (ms ttl : Nat) (s : CMState), SafeReachable ms ttl s →
        ∀ k : String, countTasks s k ≤ 1) := by
  refine ⟨?_, ?_, ?_⟩
  · intro s text model now v h
    exact submitOp_of_some s text model now v h
  · intro s text model now h
    rw [submitOp_of_none s text model now h]
    have hkeyabs : cacheKey text model ∉ s.cache.map Prod.fst :=
      (alookup_eq_none s.cache (cacheKey text model)).1 h
    have hfilnone : alookup (evictIfNeeded s.cache s.max_size) (cacheKey text model)
        = none := by
      rw [alookup_eq_none]
      intro hc
      exact hkeyabs (((evictIfNeeded_sublist s.cache s.max_size).map Prod.fst).subset hc)
    refine ⟨rfl, ?_, rfl⟩
    rw [alookup_append_none _ _ _ hfilnone]
    simp [alookup]
  · intro ms ttl s h k
    exact (tasksInv_safeReachable ms ttl s h).2 k

theorem claim_C2_witness :
    (submitOp (initCM 5 60) "hello" "M" 1).1.tasks
        = [(cacheKey "hello" "M", TaskStage.spawned)]
    ∧ countTasks (initCM 5 60) (cacheKey "hello" "M") ≤ 1 := by
  obtain ⟨h1, -, -⟩ := claim_C2.2.1 (initCM 5 60) "hello" "M" 1 (by decide)
  refine ⟨by rw [h1]; rfl,
    claim_C2.2.2 5 60 (initCM 5 60) SafeReachable.init (cacheKey "hello" "M")⟩

/-! ### Claim C3 -/

/-- C3: `get_by_key` returns the entry's audio iff the entry's status is
COMPLETED at the lookup, or the completion signal wakes the waiter within
the timeout with status COMPLETED; it returns `None` when the entry is
absent, FAILED, or the wait times out.  The source performs no assignment
on this path, so a timed-out wait leaves the entry (status, audio, error,
signal) unchanged — accordingly the embedding is a pure read.  The
hypotheses state the audio-iff-COMPLETED entry invariant for the entries
involved, and that a wake only happens with the completion signal set. -/
theorem claim_C3 (s : CMState) (key : String) (w : WaitOutcome)
    (hinv : ∀ e, alookup s.cache key = some e →
      (e.audio ≠ none ↔ e.status = CacheStatus.COMPLETED))
    (hwoke : ∀ e', w = WaitOutcome.woke e' →
      e'.eventSet = true ∧ (e'.audio ≠ none ↔ e'.status = CacheStatus.COMPLETED)) :
    (alookup s.cache key = none → get_by_key s key w = none)
    ∧ (∀ e, alookup s.cache key = some e → e.status = CacheStatus.FAILED →
        get_by_key s key w = none)
    ∧ (∀ e, alookup s.cache key = some e → e.status = CacheStatus.COMPLETED →
        get_by_key s key w = e.audio ∧ ∃ b, get_by_key s key w = some b)
    ∧ (∀ e, alookup s.cache key = some e → e.status ≠ CacheStatus.COMPLETED →
        e.status ≠ CacheStatus.FAILED → w = WaitOutcome.timedOut →
        get_by_key s key w = none)
    ∧ ((∃ b, get_by_key s key w = some b) ↔
        (∃ e, alookup s.cache key = some e ∧
          (e.status = CacheStatus.COMPLETED ∨
            (e.status ≠ CacheStatus.COMPLETED ∧ e.status ≠ CacheStatus.FAILED ∧
              ∃ e', w = WaitOutcome.woke e' ∧ e'.status = CacheStatus.COMPLETED)))) := by
  refine ⟨?_, ?_, ?_, ?_, ?_⟩
  · intro h
    simp [get_by_key, h]
  · intro e he hf
    simp [get_by_key, he, hf]
  · intro e he hc
    refine ⟨by simp [get_by_key, he, hc], ?_⟩
    obtain ⟨b, hb⟩ := Option.ne_none_iff_exists'.1 ((hinv e he).2 hc)
    exact ⟨b, by simp [get_by_key, he, hc, hb]⟩
  · intro e he hnc hnf hw
    subst hw
    simp [get_by_key, he, hnc, hnf]
  · constructor
    · rintro ⟨b, hb⟩
      unfold get_by_key at hb
      cases halo : alookup s.cache key with
      | none =>
        rw [halo] at hb
        simp at hb
      | some e =>
        rw [halo] at hb
        dsimp only at hb
        by_cases hc : e.status = CacheStatus.COMPLETED
        · exact ⟨e, rfl, Or.inl hc⟩
        · rw [if_neg hc] at hb
          by_cases hf : e.status = CacheStatus.FAILED
          · rw [if_pos hf] at hb
            cases hb
          · rw [if_neg hf] at hb
            cases hw : w with
            | timedOut =>
              rw [hw] at hb
              simp at hb
            | woke e' =>
              rw [hw] at hb
              dsimp only at hb
              by_cases hc' : e'.status = CacheStatus.COMPLETED
              · exact ⟨e, rfl, Or.inr ⟨hc, hf, e', rfl, hc'⟩⟩
              · rw [if_neg hc'] at hb
                cases hb
    · rintro ⟨e, he, hcase⟩
      rcases hcase with hc | ⟨hnc, hnf, e', hw, hc'⟩
      · obtain ⟨b, hb⟩ := Option.ne_none_iff_exists'.1 ((hinv e he).2 hc)
        exact ⟨b, by simp [get_by_key, he, hc, hb]⟩
      · subst hw
        obtain ⟨b, hb⟩ := Option.ne_none_iff_exists'.1 ((hwoke e' rfl).2.2 hc')
        exact ⟨b, by simp [get_by_key, he, hnc, hnf, hc', hb]⟩

theorem claim_C3_witness :
    get_by_key demoStateC3 "k" WaitOutcome.timedOut = some [1, 2] := by
  obtain ⟨-, -, h3, -, -⟩ := claim_C3 demoStateC3 "k" WaitOutcome.timedOut
    (by
      intro e he
      have h' : some demoEntryCompleted = some e := he
      injection h' with h''
      subst h''
      decide)
    (by intro e' he'; cases he')
  exact (h3 demoEntryCompleted (by decide) (by decide)).1.trans rfl

theorem survives_iff (seg : String) :
    survives seg = true ↔ (seg ≠ "" ∧ pyStripS seg ≠ "") := by
  simp [survives]

theorem swsFold_keys (model : String) (now : Nat) (segs : List String) :
    ∀ (s : CMState) (acc : List String),
      (segs.foldl (swsStep model now) (s, acc)).2 =
        acc ++ (segs.filter survives).map (fun seg => cacheKey (pyStripS seg) model) := by
  induction segs with
  | nil => intro s acc; simp
  | cons seg rest ih =>
    intro s acc
    rw [List.foldl_cons, List.filter_cons]
    by_cases h : seg ≠ "" ∧ pyStripS seg ≠ ""
    · rw [if_pos ((survives_iff seg).2 h)]
      rw [show swsStep model now (s, acc) seg =
        ((submitOp s (pyStripS seg) model now).1,
         acc ++ [(submitOp s (pyStripS seg) model now).2]) from by simp [swsStep, h]]
      rw [ih]
      rw [submitOp_key]
      simp
    · rw [if_neg (fun hc => h ((survives_iff seg).1 hc))]
      rw [show swsStep model now (s, acc) seg = (s, acc) from by simp [swsStep, h]]
      exact ih s acc

theorem swsFold_segmap (model : String) (now : Nat) (segs : List String) :
    ∀ (s : CMState) (acc : List String),
      (segs.foldl (swsStep model now) (s, acc)).1.segment_map = s.segment_map := by
  induction segs with
  | nil => intro s acc; rfl
  | cons seg rest ih =>
    intro s acc
    rw [List.foldl_cons]
    by_cases h : seg ≠ "" ∧ pyStripS seg ≠ ""
    · rw [show swsStep model now (s, acc) seg =
        ((submitOp s (pyStripS seg) model now).1,
         acc ++ [(submitOp s (pyStripS seg) model now).2]) from by simp [swsStep, h]]
      rw [ih]
      exact submitOp_segmap s (pyStripS seg) model now
    · rw [show swsStep model now (s, acc) seg = (s, acc) from by simp [swsStep, h]]
      exact ih s acc

theorem swsFold_id (model : String) (now : Nat) (segs : List String) :
    ∀ (s : CMState) (acc : List String), segs.filter survives = [] →
      segs.foldl (swsStep model now) (s, acc) = (s, acc) := by
  induction segs with
  | nil => intro s acc _; rfl
  | cons seg rest ih =>
    intro s acc hnil
    rw [List.filter_cons] at hnil
    by_cases hs : survives seg = true
    · rw [if_pos hs] at hnil
      cases hnil
    · have h : ¬ (seg ≠ "" ∧ pyStripS seg ≠ "") := fun hc => hs ((survives_iff seg).2 hc)
      rw [if_neg hs] at hnil
      rw [List.foldl_cons,
        show swsStep model now (s, acc) seg = (s, acc) from by simp [swsStep, h]]
      exact ih s acc hnil

theorem alookup_map_upsert {α : Type} (k : String) (v : α) :
    ∀ (l : List (String × α)), (alookup l k).isSome →
      alookup (l.map (fun p => if p.1 = k then (k, v) else p)) k = some v := by
  intro l
  induction l with
  | nil => intro h; cases h
  | cons p rest ih =>
    intro h
    obtain ⟨a, b⟩ := p
    by_cases hak : a = k
    · subst hak
      rw [List.map_cons, show (if (a, b).1 = a then (a, v) else (a, b)) = (a, v) from
        by simp]
      rw [alookup, if_pos rfl]
    · rw [List.map_cons, show (if (a, b).1 = k then (k, v) else (a, b)) = (a, b) from
        by simp [hak]]
      rw [alookup, if_neg (fun hka => hak hka.symm)]
      rw [alookup, if_neg (fun hka => hak hka.symm)] at h
      exact ih h

theorem alookup_aupsert_self {α : Type} (l : List (String × α)) (k : String) (v : α) :
    alookup (aupsert l k v) k = some v := by
  unfold aupsert
  by_cases h : (alookup l k).isSome
  · rw [if_pos h]
    exact alookup_map_upsert k v l h
  · rw [if_neg h]
    have hn : alookup l k = none := Option.not_isSome_iff_eq_none.1 h
    rw [alookup_append_none l [(k, v)] k hn]
    simp [alookup]

/-- C10: `submit_with_segments(full_text, segments, model)` skips the
segments that are empty or strip to empty, submits each surviving segment
with its surrounding whitespace stripped, and the fingerprint list it
returns and records is exactly `model ++ ":" ++ stripped segment` for the
surviving segments in their original order; the mapping is stored under
the full text's fingerprint when some segment survives, and when none
survives the state is left unchanged. -/
theorem claim_C10 (s : CMState) (full_text : String) (segments : List String)
    (model : String) (now : Nat) :
    (submitWithSegments s full_text segments model now).2.2 =
        (segments.filter survives).map (fun seg => cacheKey (pyStripS seg) model)
    ∧ (submitWithSegments s full_text segments model now).2.1 = cacheKey full_text model
    ∧ (segments.filter survives ≠ [] →
        alookup (submitWithSegments s full_text segments model now).1.segment_map
            (cacheKey full_text model) =
          some ⟨truncateFull full_text,
            (segments.filter survives).map (fun seg => cacheKey (pyStripS seg) model),
            now⟩)
    ∧ (segments.filter survives = [] →
        (submitWithSegments s full_text segments model now).1 = s) := by
  have hkeys := swsFold_keys model now segments s []
  have hmap := swsFold_segmap model now segments s []
  unfold submitWithSegments
  cases hF : segments.foldl (swsStep model now) (s, []) with
  | mk s1 ks =>
    rw [hF] at hkeys hmap
    simp only [List.nil_append] at hkeys
    cases ks with
    | nil =>
      refine ⟨hkeys, rfl, ?_, ?_⟩
      · intro hne
        exact absurd hkeys.symm (by simpa using hne)
      · intro hnil
        have := swsFold_id model now segments s [] hnil
        rw [hF] at this
        exact (congrArg Prod.fst this)
    | cons k ks =>
      refine ⟨hkeys, rfl, ?_, ?_⟩
      · intro _
        show alookup (aupsert s1.segment_map (cacheKey full_text model)
            ⟨truncateFull full_text, k :: ks, now⟩) (cacheKey full_text model) = _
        rw [alookup_aupsert_self, hkeys]
      · intro hnil
        rw [hnil] at hkeys
        cases hkeys

theorem claim_C10_witness :
    (submitWithSegments (initCM 10 3600) "full text" [" hello ", "", "  ", "world"]
        "M" 5).2.2 = ["M:hello", "M:world"]
    ∧ alookup (submitWithSegments (initCM 10 3600) "full text"
          [" hello ", "", "  ", "world"] "M" 5).1.segment_map (cacheKey "full text" "M")
        = some ⟨"full text", ["M:hello", "M:world"], 5⟩ := by
  obtain ⟨h1, -, h3, -⟩ := claim_C10 (initCM 10 3600) "full text"
    [" hello ", "", "  ", "world"] "M" 5
  exact ⟨h1.trans (by decide), (h3 (by decide)).trans (by decide)⟩

end GsvTTS
